import Mathlib

/-!
Verification of the file-fairy indexing/suggestion core against its
natural-language specification.  Rust sources are shallowly embedded:
strings become `List Char`, `u64`/`usize` become `Nat`, `f32`/`f64`
become `Rat`, fallible calls become `Except`, and external effects
(LanceDB, the filesystem, the Ollama runtime) become explicit
parameters.  Each embedded definition names the Rust function it
translates.
-/

set_option maxHeartbeats 1000000

namespace FileFairy

/-! ### Chunker

`OllamaService::chunk_text` (src-tauri/src/services/ollama.rs) delegates to the
external text-splitter crate configured with `CHUNK_SIZE = 250`,
`CHUNK_OVERLAP = 50`.  The repository's own implementation of the §4.2
sliding-window chunker is `OrganizationService::chunk_content`
(src-tauri/src/services/organization.rs): a loop over codepoint indices that
takes the window `[start, start+W)` truncated to the text length, advances by
`W − O`, and carries a loop-termination guard `if CHUNK_OVERLAP >= CHUNK_SIZE
break`.  We embed that loop, generalized over the parameters `(w, o)`, and
instantiate it at the configured `(250, 50)`.
-/

/-- One iteration of the `while start_idx < char_indices.len() - 1` loop of
`chunk_content`: push `content[start .. min (start+w) n]`, advance by `w - o`,
and honour the dead-code guard `if CHUNK_OVERLAP >= CHUNK_SIZE break`.
The fuel argument only bounds the iteration count; `t.length + 1` is always
enough when `o < w`. -/
def chunkAux (w o : Nat) (t : List Char) : Nat → Nat → List (List Char)
  | 0, _ => []
  | Nat.succ fuel, i =>
    if i < t.length then
      ((t.drop i).take w) ::
        (if w ≤ o then [] else chunkAux w o t fuel (i + (w - o)))
    else []

/-- Embedding of `OrganizationService::chunk_content`, generalized over the
window `w` and overlap `o` (the source fixes them as constants; the
`chunk_text` configuration uses 250 and 50). -/
def chunk_content (w o : Nat) (t : List Char) : List (List Char) :=
  chunkAux w o t (t.length + 1) 0

/-- Concatenate chunks after stripping the `o`-character overlap region from
every chunk except the first (the reconstruction operation of the spec's
round-trip property). -/
def stripJoin (o : Nat) : List (List Char) → List Char
  | [] => []
  | c :: cs => c ++ (cs.map (fun d => d.drop o)).flatten

lemma chunkAux_eq_nil_of_le (w o : Nat) (t : List Char) (fuel i : Nat)
    (h : t.length ≤ i) : chunkAux w o t fuel i = [] := by
  cases fuel with
  | zero => rfl
  | succ fuel => simp [chunkAux, Nat.not_lt.mpr h]

lemma chunkAux_strip_join (w o : Nat) (h : o < w) (t : List Char) :
    ∀ fuel i, t.length ≤ i + fuel →
      ((chunkAux w o t fuel i).map (fun c => c.drop o)).flatten = t.drop (i + o) := by
  intro fuel
  induction fuel with
  | zero =>
    intro i hi
    simp only [Nat.add_zero] at hi
    simp [chunkAux, List.drop_eq_nil_of_le (le_trans hi (Nat.le_add_right i o))]
  | succ fuel ih =>
    intro i hi
    by_cases hil : i < t.length
    · have hwo : ¬ w ≤ o := Nat.not_le.mpr h
      rw [chunkAux]
      simp only [hil, if_true, hwo, if_false, List.map_cons, List.flatten_cons]
      rw [ih (i + (w - o)) (by omega)]
      have h1 : ((t.drop i).take w).drop o = (t.drop (i + o)).take (w - o) := by
        rw [List.drop_take, List.drop_drop]
      have h2 : t.drop (i + (w - o) + o) = (t.drop (i + o)).drop (w - o) := by
        rw [List.drop_drop]
        congr 1
        omega
      rw [h1, h2, List.take_append_drop]
    · rw [chunkAux_eq_nil_of_le w o t _ i (Nat.not_lt.mp hil)]
      simp [List.drop_eq_nil_of_le (le_trans (Nat.not_lt.mp hil) (Nat.le_add_right i o))]

lemma chunkAux_getLast (w o : Nat) (h : o < w) (t : List Char) :
    ∀ fuel i, t.length ≤ i + fuel → i < t.length →
      ∃ j, j < t.length ∧ (chunkAux w o t fuel i).getLast? = some (t.drop j) := by
  intro fuel
  induction fuel with
  | zero => intro i hi hil; omega
  | succ fuel ih =>
    intro i hi hil
    have hwo : ¬ w ≤ o := Nat.not_le.mpr h
    rw [chunkAux]
    simp only [hil, if_true, hwo, if_false]
    by_cases hnext : i + (w - o) < t.length
    · obtain ⟨j, hj, hlast⟩ := ih (i + (w - o)) (by omega) hnext
      refine ⟨j, hj, ?_⟩
      rw [← hlast]
      cases htail : chunkAux w o t fuel (i + (w - o)) with
      | nil => rw [htail] at hlast; simp at hlast
      | cons b l => exact List.getLast?_cons_cons
    · rw [chunkAux_eq_nil_of_le w o t _ _ (Nat.not_lt.mp hnext)]
      refine ⟨i, hil, ?_⟩
      have htake : (t.drop i).take w = t.drop i := by
        apply List.take_of_length_le
        rw [List.length_drop]
        omega
      simp [htake]

/-- C1.  Chunker round-trip at the configured parameters (W, O) = (250, 50):
for every text, concatenating the chunks after stripping the 50-character
overlap from every chunk but the first reconstructs the text exactly, and the
last chunk is a nonempty suffix of the text (its right edge is exactly the
text length). -/
theorem chunker_roundtrip (t : List Char) :
    stripJoin 50 (chunk_content 250 50 t) = t ∧
    (t ≠ [] → ∃ lastChunk, (chunk_content 250 50 t).getLast? = some lastChunk ∧
      lastChunk ≠ [] ∧ lastChunk <:+ t) := by
  have h50 : (50 : Nat) < 250 := by norm_num
  constructor
  · rcases List.eq_nil_or_concat t with hnil | ⟨_, _, _⟩
    · subst hnil; rfl
    · have hpos : 0 < t.length := by
        rcases t with _ | ⟨c, cs⟩
        · simp_all
        · simp
      unfold chunk_content
      rw [chunkAux]
      simp only [hpos, if_true]
      have : ¬ (250 : Nat) ≤ 50 := by norm_num
      simp only [this, if_false]
      rw [stripJoin]
      rw [chunkAux_strip_join 250 50 h50 t t.length (0 + (250 - 50)) (by omega)]
      simp
  · intro hne
    have hpos : 0 < t.length := List.length_pos.mpr hne
    obtain ⟨j, hj, hlast⟩ :=
      chunkAux_getLast 250 50 h50 t (t.length + 1) 0 (by omega) hpos
    refine ⟨t.drop j, hlast, ?_, List.drop_suffix j t⟩
    intro hnil
    have := congrArg List.length hnil
    rw [List.length_drop] at this
    simp at this
    omega

/-- Witness for C1 at a concrete text, exercising the nonempty-text branch. -/
theorem chunker_roundtrip_witness :
    stripJoin 50 (chunk_content 250 50 ['h', 'i']) = ['h', 'i'] ∧
    (∃ lastChunk, (chunk_content 250 50 ['h', 'i']).getLast? = some lastChunk ∧
      lastChunk ≠ [] ∧ lastChunk <:+ ['h', 'i']) :=
  ⟨(chunker_roundtrip ['h', 'i']).1, (chunker_roundtrip ['h', 'i']).2 (by decide)⟩

/-! ### Vector store (src-tauri/src/services/database.rs)

`DatabaseService` keeps a LanceDB table of `FileChunkSchema` rows.  We model
the table contents as a `List FileChunkSchema`; `table.delete("file_path =
p")` becomes a filter and `table.add` an append.  `FileChunkSchema::new`
(src-tauri/src/types.rs) derives `file_name` from the path and stamps
`created_at` with the current time, which we pass in as the parameter `now`.
-/

/-- Embedding of `FileChunkSchema` (src-tauri/src/types.rs). -/
structure FileChunkSchema where
  chunk_id : Nat
  created_at : Nat
  file_path : String
  file_name : String
  text : String
  vector : List Rat
deriving DecidableEq, Repr

/-- Final path component, as `Path::new(&file_path).file_name()` computes it
for ordinary file paths (component after the last separator), with the
`unwrap_or("unknown")` fallback of `FileChunkSchema::new`. -/
def rustFileName (p : String) : String :=
  let comp := ((p.toList.reverse.takeWhile (fun c => c ≠ '/')).reverse)
  if comp = [] then "unknown" else String.mk comp

/-- Embedding of `FileChunkSchema::new` with the ambient clock passed in. -/
def FileChunkSchema.make (chunk_id : Nat) (now : Nat) (file_path text : String)
    (vector : List Rat) : FileChunkSchema :=
  { chunk_id := chunk_id
    created_at := now
    file_path := file_path
    file_name := rustFileName file_path
    text := text
    vector := vector }

/-- Record construction of `DatabaseService::upsert_file`: the chunk texts are
zipped with their embeddings and enumerated, the position becoming the
`chunk_id`. -/
def upsertRecords (now : Nat) (file_path : String) (chunks : List String)
    (embeddings : List (List Rat)) : List FileChunkSchema :=
  (chunks.zip embeddings).enum.map
    (fun ie => FileChunkSchema.make ie.1 now file_path ie.2.1 ie.2.2)

/-- Effect of `DatabaseService::remove_file` on the table contents when the
underlying delete succeeds: every row with the given `file_path` is deleted. -/
def removeFileRows (file_path : String) (tbl : List FileChunkSchema) :
    List FileChunkSchema :=
  tbl.filter (fun r => r.file_path ≠ file_path)

/-- Effect of `DatabaseService::upsert_file` on the table contents:
delete-then-append (the new rows are built by `upsertRecords`). -/
def upsert_file (now : Nat) (file_path : String) (chunks : List String)
    (embeddings : List (List Rat)) (tbl : List FileChunkSchema) :
    List FileChunkSchema :=
  removeFileRows file_path tbl ++ upsertRecords now file_path chunks embeddings

/-- Error/result behaviour of `DatabaseService::remove_file`: the table handle
is obtained fallibly, then the delete result is bound to `_` and discarded
(`let _ = table.delete(..).await`), and `Ok(())` is returned.  `tableRes`
models `self.get_table().await`, `deleteRes` models the delete call on the
obtained table. -/
def remove_file (α : Type) (tableRes : Except String α)
    (deleteRes : α → Except String Unit) : Except String Unit :=
  match tableRes with
  | Except.error e => Except.error e
  | Except.ok t =>
    let _discarded := deleteRes t
    Except.ok ()

/-- C2.  Chunk-id monotonicity of upsert: after an `upsert_file` whose
embedding batch is length-preserving, the rows stored for that file path carry
chunk ids exactly 0, 1, …, n−1 in order, and the row with chunk id i holds
chunk i of the chunk sequence. -/
theorem upsert_chunk_ids (now : Nat) (p : String) (chunks : List String)
    (embeddings : List (List Rat)) (tbl : List FileChunkSchema)
    (hlen : embeddings.length = chunks.length) :
    let rows := (upsert_file now p chunks embeddings tbl).filter
      (fun r => r.file_path = p)
    rows.map (fun r => r.chunk_id) = List.range chunks.length ∧
    rows.map (fun r => r.text) = chunks := by
  intro rows
  have hrows : rows = upsertRecords now p chunks embeddings := by
    show List.filter _ (removeFileRows p tbl ++ upsertRecords now p chunks embeddings) = _
    rw [List.filter_append]
    have h1 : List.filter (fun r => decide (r.file_path = p)) (removeFileRows p tbl) = [] := by
      rw [List.filter_eq_nil_iff]
      intro r hr
      have := List.of_mem_filter hr
      simpa using this
    have h2 : List.filter (fun r => decide (r.file_path = p))
        (upsertRecords now p chunks embeddings) = upsertRecords now p chunks embeddings := by
      rw [List.filter_eq_self]
      intro r hr
      obtain ⟨ie, _, hmk⟩ := List.mem_map.mp hr
      simp [← hmk, FileChunkSchema.make]
    rw [h1, h2, List.nil_append]
  have hziplen : (chunks.zip embeddings).length = chunks.length := by
    rw [List.length_zip, hlen, Nat.min_self]
  constructor
  · rw [hrows]
    unfold upsertRecords
    rw [List.map_map]
    have : ((fun r => r.chunk_id) ∘
        (fun ie => FileChunkSchema.make ie.1 now p ie.2.1 ie.2.2)) =
        (fun ie : Nat × (String × List Rat) => ie.1) := rfl
    rw [this, ← hziplen]
    exact List.enum_map_fst (chunks.zip embeddings)
  · rw [hrows]
    unfold upsertRecords
    rw [List.map_map]
    have : ((fun r => r.text) ∘
        (fun ie => FileChunkSchema.make ie.1 now p ie.2.1 ie.2.2)) =
        (fun ie : Nat × (String × List Rat) => ie.2.1) := rfl
    rw [this]
    have hsnd : (chunks.zip embeddings).enum.map
        (fun ie : Nat × (String × List Rat) => ie.2.1) =
        ((chunks.zip embeddings).enum.map Prod.snd).map (fun e => e.1) := by
      rw [List.map_map]
      rfl
    rw [hsnd, List.enum_map_snd]
    exact List.map_fst_zip chunks embeddings (le_of_eq hlen.symm)

/-- Witness for C2 at a concrete store and batch. -/
theorem upsert_chunk_ids_witness :
    let rows := (upsert_file 7 "/a/b.txt" ["hello", "world"] [[1], [2]]
      [FileChunkSchema.make 0 3 "/a/b.txt" "old" [5],
       FileChunkSchema.make 0 3 "/c.txt" "other" [6]]).filter
      (fun r => r.file_path = "/a/b.txt")
    rows.map (fun r => r.chunk_id) = List.range 2 ∧
    rows.map (fun r => r.text) = ["hello", "world"] :=
  upsert_chunk_ids 7 "/a/b.txt" ["hello", "world"] [[1], [2]] _ (by decide)

/-- C9.  `remove_file` swallows all delete errors: whenever the table handle
is obtained, the call returns `Ok(())` no matter what the delete returns, and
its outcome never depends on the delete result at all. -/
theorem remove_file_swallows_delete_errors (α : Type) (tableRes : Except String α)
    (deleteRes : α → Except String Unit) (t : α) (h : tableRes = Except.ok t) :
    remove_file α tableRes deleteRes = Except.ok () ∧
    (∀ d2 : α → Except String Unit, remove_file α tableRes deleteRes =
      remove_file α tableRes d2) := by
  subst h
  exact ⟨rfl, fun d2 => rfl⟩

/-- Witness for C9: a failing delete is discarded and the call still
succeeds. -/
theorem remove_file_swallows_delete_errors_witness :
    remove_file Unit (Except.ok ()) (fun _ => Except.error "delete failed") =
      Except.ok () ∧
    (∀ d2 : Unit → Except String Unit,
      remove_file Unit (Except.ok ()) (fun _ => Except.error "delete failed") =
        remove_file Unit (Except.ok ()) d2) :=
  remove_file_swallows_delete_errors Unit (Except.ok ())
    (fun _ => Except.error "delete failed") () rfl

/-! ### Watch service (src-tauri/src/services/watch.rs)

`WatchService` keeps `watched : HashMap<PathBuf, WatchedFolder>` and
`watchers : HashMap<PathBuf, JoinHandle>`.  We model the first as an
association list from path to state (the `WatchedFolder.path` field always
equals its key) and the second as the list of paths holding a live watcher
task; the opaque `JoinHandle` carries no data we need.  Mutating methods are
embedded as state transformers returning the new state together with the
`Result`; an `Err` return leaves the state component untouched, exactly as the
source's early returns do.  Filesystem predicates (`canonicalize`, `exists`,
`is_dir`) are passed in as parameters.
-/

/-- Embedding of `WatchState` (src-tauri/src/types.rs). -/
inductive WatchState where
  | Active
  | Paused
deriving DecidableEq, Repr

/-- State of a `WatchService`: the registry and the set of spawned watcher
tasks. -/
structure WatchServiceState where
  watched : List (String × WatchState)
  watchers : List String
deriving DecidableEq, Repr

/-- Embedding of `WatchService::pause_folder`: look up the caller-supplied
path verbatim (`watched.get_mut(folder)`), set its state to `Paused`, or fail
with the source's error string.  The `watchers` map is never touched. -/
def pause_folder (st : WatchServiceState) (folder : String) :
    WatchServiceState × Except String Unit :=
  match st.watched.lookup folder with
  | some _ =>
    let upd := st.watched.map
      (fun kv => if kv.1 = folder then (kv.1, WatchState.Paused) else kv)
    ({ st with watched := upd }, Except.ok ())
  | none => (st, Except.error "Folder is not being watched")

/-- Embedding of `WatchService::resume_folder` (same shape, state set to
`Active`). -/
def resume_folder (st : WatchServiceState) (folder : String) :
    WatchServiceState × Except String Unit :=
  match st.watched.lookup folder with
  | some _ =>
    let upd := st.watched.map
      (fun kv => if kv.1 = folder then (kv.1, WatchState.Active) else kv)
    ({ st with watched := upd }, Except.ok ())
  | none => (st, Except.error "Folder is not being watched")

/-- Embedding of `WatchService::remove_folder`: remove the caller-supplied
path verbatim from the registry; if it was absent, fail without touching
anything; otherwise also drop (abort) the watcher task for that key. -/
def remove_folder (st : WatchServiceState) (folder : String) :
    WatchServiceState × Except String Unit :=
  if (st.watched.lookup folder).isSome then
    ({ watched := st.watched.filter (fun kv => kv.1 ≠ folder),
       watchers := st.watchers.filter (fun k => k ≠ folder) },
     Except.ok ())
  else (st, Except.error "Folder is not being watched")

/-- Embedding of `WatchService::register_folder`: canonicalize the path
(fallibly), reject an already-watched canonical path, require an existing
directory, then insert the canonicalized path into the registry with state
`Active` and record the spawned watcher under the same key. -/
def register_folder (canonicalize : String → Option String)
    (pathExists pathIsDir : String → Bool)
    (st : WatchServiceState) (folder : String) :
    WatchServiceState × Except String Unit :=
  match canonicalize folder with
  | none => (st, Except.error "Failed to canonicalize path")
  | some cf =>
    if (st.watched.lookup cf).isSome then
      (st, Except.error "Folder is already being watched")
    else if ¬ pathExists cf then (st, Except.error "Folder does not exist")
    else if ¬ pathIsDir cf then (st, Except.error "Path is not a directory")
    else
      ({ watched := (cf, WatchState.Active) :: st.watched,
         watchers := cf :: st.watchers },
       Except.ok ())

/-- Event kinds distinguished by the watcher loop of `spawn_watcher`. -/
inductive EventKind where
  | create
  | modify
  | remove
  | other
deriving DecidableEq, Repr

/-- Embedding of a `notify::Event`: a kind plus affected paths. -/
structure FsEvent where
  kind : EventKind
  paths : List String
deriving DecidableEq, Repr

/-- Store operations the watcher loop can issue for an event. -/
inductive WatchAction where
  | upsertEmbedding (path : String)
  | removeEmbedding (path : String)
deriving DecidableEq, Repr

/-- Embedding of `WatchService::should_process_event`: the event is processed
only when the root is present in the registry with state `Active`
(`map(|w| w.state == Active).unwrap_or(false)`). -/
def should_process_event (watched : List (String × WatchState))
    (folder : String) : Bool :=
  match watched.lookup folder with
  | some s => s = WatchState.Active
  | none => false

/-- One iteration of the event loop in `WatchService::spawn_watcher`: drop the
event unless `should_process_event` holds, terminate silently if the root left
the registry, then dispatch per event kind — `Create`/`Modify` upsert each
existing supported file, `Remove` removes each supported path, anything else
is ignored.  Returns the store operations issued for the event. -/
def handle_event (watched : List (String × WatchState)) (folder : String)
    (pathExists pathIsFile supported : String → Bool) (ev : FsEvent) :
    List WatchAction :=
  if ¬ should_process_event watched folder then []
  else if (watched.lookup folder).isNone then []
  else
    match ev.kind with
    | EventKind.create =>
      (ev.paths.filter (fun p => pathExists p && pathIsFile p && supported p)).map
        WatchAction.upsertEmbedding
    | EventKind.modify =>
      (ev.paths.filter (fun p => pathExists p && pathIsFile p && supported p)).map
        WatchAction.upsertEmbedding
    | EventKind.remove =>
      (ev.paths.filter (fun p => supported p)).map WatchAction.removeEmbedding
    | EventKind.other => []

/-- C8.  Paused roots drop events: while a root's registry state is `Paused`,
the watcher loop issues no store operation for any event, and `pause_folder` /
`resume_folder` never tear down the watcher task (the `watchers` map is
unchanged by both, whatever their outcome). -/
theorem paused_root_drops_events (watched : List (String × WatchState))
    (folder : String) (pathExists pathIsFile supported : String → Bool)
    (ev : FsEvent) (st : WatchServiceState)
    (h : watched.lookup folder = some WatchState.Paused) :
    handle_event watched folder pathExists pathIsFile supported ev = [] ∧
    (pause_folder st folder).1.watchers = st.watchers ∧
    (resume_folder st folder).1.watchers = st.watchers := by
  refine ⟨?_, ?_, ?_⟩
  · unfold handle_event should_process_event
    rw [h]
    simp
  · unfold pause_folder
    cases st.watched.lookup folder <;> rfl
  · unfold resume_folder
    cases st.watched.lookup folder <;> rfl

/-- Witness for C8: a concrete paused root whose modify event produces no
store operation. -/
theorem paused_root_drops_events_witness :
    handle_event [("/root", WatchState.Paused)] "/root" (fun _ => true)
      (fun _ => true) (fun _ => true)
      { kind := EventKind.modify, paths := ["/root/a.txt"] } = [] ∧
    (pause_folder { watched := [("/root", WatchState.Paused)], watchers := ["/root"] }
      "/root").1.watchers = ["/root"] ∧
    (resume_folder { watched := [("/root", WatchState.Paused)], watchers := ["/root"] }
      "/root").1.watchers = ["/root"] :=
  paused_root_drops_events [("/root", WatchState.Paused)] "/root" (fun _ => true)
    (fun _ => true) (fun _ => true)
    { kind := EventKind.modify, paths := ["/root/a.txt"] }
    { watched := [("/root", WatchState.Paused)], watchers := ["/root"] }
    (by decide)

/-- C10.  Registry lookups are not canonicalized: `register_folder` stores the
canonicalized path as the key, but `pause_folder`, `resume_folder` and
`remove_folder` look up the caller-supplied path verbatim, so a non-canonical
alias of a registered root fails with the "not being watched" error and leaves
both the registry and the watcher map unchanged. -/
theorem registry_lookup_not_canonicalized
    (canonicalize : String → Option String) (pathExists pathIsDir : String → Bool)
    (st0 st : WatchServiceState) (alias0 root : String) (ws : WatchState)
    (hcanon : canonicalize alias0 = some root)
    (halias : alias0 ≠ root)
    (hreg : st.watched.lookup root = some ws)
    (hmiss : st.watched.lookup alias0 = none)
    (hnew : st0.watched.lookup root = none)
    (hex : pathExists root = true) (hdir : pathIsDir root = true) :
    register_folder canonicalize pathExists pathIsDir st0 alias0 =
      ({ watched := (root, WatchState.Active) :: st0.watched,
         watchers := root :: st0.watchers }, Except.ok ()) ∧
    pause_folder st alias0 = (st, Except.error "Folder is not being watched") ∧
    resume_folder st alias0 = (st, Except.error "Folder is not being watched") ∧
    remove_folder st alias0 = (st, Except.error "Folder is not being watched") := by
  refine ⟨?_, ?_, ?_, ?_⟩
  · unfold register_folder
    rw [hcanon]
    simp [hnew, hex, hdir]
  · unfold pause_folder
    rw [hmiss]
  · unfold resume_folder
    rw [hmiss]
  · unfold remove_folder
    rw [hmiss]
    rfl

/-- Empty watch-service state used by the C10 witness. -/
def emptyWatchState : WatchServiceState := { watched := [], watchers := [] }

/-- Watch-service state used by the C10 witness: one registered canonical
root. -/
def docsWatchState : WatchServiceState :=
  { watched := [("/home/u/docs", WatchState.Active)], watchers := ["/home/u/docs"] }

/-- Canonicalization function used by the C10 witness: resolves the relative
alias "docs" to the canonical "/home/u/docs". -/
def docsCanon : String → Option String :=
  fun p => if p = "docs" then some "/home/u/docs" else none

/-- Witness for C10: a relative alias of a canonicalized registered root is
rejected by pause/resume/remove while registration uses the canonical key. -/
theorem registry_lookup_not_canonicalized_witness :
    register_folder docsCanon (fun _ => true) (fun _ => true) emptyWatchState
      "docs" = (docsWatchState, Except.ok ()) ∧
    pause_folder docsWatchState "docs" =
      (docsWatchState, Except.error "Folder is not being watched") ∧
    resume_folder docsWatchState "docs" =
      (docsWatchState, Except.error "Folder is not being watched") ∧
    remove_folder docsWatchState "docs" =
      (docsWatchState, Except.error "Folder is not being watched") :=
  registry_lookup_not_canonicalized docsCanon (fun _ => true) (fun _ => true)
    emptyWatchState docsWatchState "docs" "/home/u/docs" WatchState.Active
    (by decide) (by decide) (by decide) (by decide) (by decide) rfl rfl

/-! ### Representative selector (`OllamaService::extract_key_chunks`)

The source runs linfa's KMeans on the embedding matrix and then, for each
centroid, scans all samples for the nearest one (squared Euclidean distance,
strict `<` against a running minimum initialised to `f64::MAX` and index 0),
collects the nearest-sample indices, sorts and deduplicates them, and maps
them back to chunks.  KMeans itself is an external crate, so the centroid
matrix it returns is a parameter here (`centroids`); `f64` becomes `Rat`.
-/

/-- Squared Euclidean distance of the sample/centroid scan
(`zip`, `map |(a,b)| (a-b)^2`, `sum`). -/
def sqDist (a b : List Rat) : Rat :=
  (List.zipWith (fun x y => (x - y) ^ 2) a b).sum

/-- Inner scan of `extract_key_chunks`: find the sample index nearest to a
centroid.  The running minimum starts at `f64::MAX` (modelled as `none`, which
every real distance beats) with index 0, and only a strictly smaller distance
replaces it, so the lowest index wins ties. -/
def closestSampleIdx (embeddings : List (List Rat)) (centroid : List Rat) : Nat :=
  (embeddings.enum.foldl
    (fun acc je =>
      match acc.1 with
      | none => (some (sqDist je.2 centroid), je.1)
      | some d => if sqDist je.2 centroid < d then (some (sqDist je.2 centroid), je.1) else acc)
    ((none : Option Rat), 0)).2

/-- Remove consecutive duplicates, as `Vec::dedup` does (on a sorted vector
this removes all duplicates). -/
def dedupConsec : List Nat → List Nat
  | [] => []
  | [a] => [a]
  | a :: b :: rest =>
    if a = b then dedupConsec (a :: rest) else a :: dedupConsec (b :: rest)

/-- Representative indices chosen for `n > k`: one centroid-nearest sample
index per centroid, sorted ascending (`sort`) and deduplicated (`dedup`). -/
def selectedIdxs (embeddings centroids : List (List Rat)) : List Nat :=
  dedupConsec ((centroids.map (closestSampleIdx embeddings)).mergeSort (fun a b => a ≤ b))

/-- Embedding of `OllamaService::extract_key_chunks` with the KMeans centroid
matrix supplied as `centroids`: if `n ≤ k` return the chunks unchanged,
otherwise map the sorted deduplicated nearest-sample indices back to chunks
(`original_chunks[idx]`, always in bounds in the source; `getD` with a default
models the indexing). -/
def extract_key_chunks (embeddings : List (List Rat)) (centroids : List (List Rat))
    (original_chunks : List String) (k : Nat) : List String :=
  if embeddings.length ≤ k then original_chunks
  else (selectedIdxs embeddings centroids).map (fun idx => original_chunks.getD idx "")

lemma dedupConsec_length_le : ∀ l : List Nat, (dedupConsec l).length ≤ l.length := by
  intro l
  induction l using dedupConsec.induct with
  | case1 => simp [dedupConsec]
  | case2 a => simp [dedupConsec]
  | case3 b rest ih =>
    rw [dedupConsec, if_pos rfl]
    simp only [List.length_cons] at ih ⊢
    omega
  | case4 a b rest hab ih =>
    rw [dedupConsec, if_neg hab]
    simp only [List.length_cons] at ih ⊢
    omega

lemma dedupConsec_mem : ∀ {l : List Nat} {x : Nat}, x ∈ dedupConsec l → x ∈ l := by
  intro l
  induction l using dedupConsec.induct with
  | case1 => intro x hx; simp [dedupConsec] at hx
  | case2 a => intro x hx; simpa [dedupConsec] using hx
  | case3 b rest ih =>
    intro x hx
    rw [dedupConsec, if_pos rfl] at hx
    rcases List.mem_cons.mp (ih hx) with h | h
    · simp [h]
    · exact List.mem_cons.mpr (Or.inr (List.mem_cons.mpr (Or.inr h)))
  | case4 a b rest hab ih =>
    intro x hx
    rw [dedupConsec, if_neg hab] at hx
    rcases List.mem_cons.mp hx with h | h
    · simp [h]
    · exact List.mem_cons.mpr (Or.inr (ih h))

lemma dedupConsec_sorted : ∀ {l : List Nat}, l.Sorted (· ≤ ·) →
    (dedupConsec l).Sorted (· < ·) := by
  intro l
  induction l using dedupConsec.induct with
  | case1 => intro _; simp [dedupConsec]
  | case2 a => intro _; simp [dedupConsec]
  | case3 b rest ih =>
    intro h
    rw [dedupConsec, if_pos rfl]
    exact ih (List.sorted_cons.mp h).2
  | case4 a b rest hab ih =>
    intro h
    rw [dedupConsec, if_neg hab]
    rcases List.sorted_cons.mp h with ⟨h1, h2⟩
    have hd := ih h2
    apply List.sorted_cons.mpr
    refine ⟨?_, hd⟩
    intro x hx
    have hxbr : x ∈ b :: rest := dedupConsec_mem hx
    have hab2 : a < b :=
      lt_of_le_of_ne (h1 b (List.mem_cons_self b rest)) hab
    rcases List.mem_cons.mp hxbr with h3 | h3
    · subst h3; exact hab2
    · have hbx : b ≤ x := (List.sorted_cons.mp h2).1 x h3
      omega

/-- C3.  Representative-selection cardinality and order: with the KMeans
centroid matrix of `k` rows, the selector returns all chunks unchanged when
`n ≤ k`, and for `n > k` it returns exactly `min k c` chunks where `c` is the
number of distinct clusters found (distinct centroid-nearest representatives
after dedup), with the chosen indices strictly ascending (original order) and
each one the centroid-nearest index of some cluster centroid. -/
theorem extract_key_chunks_spec (embeddings centroids : List (List Rat))
    (chunks : List String) (k : Nat) (hk : centroids.length = k) :
    (embeddings.length ≤ k → extract_key_chunks embeddings centroids chunks k = chunks) ∧
    (k < embeddings.length →
      (extract_key_chunks embeddings centroids chunks k).length =
        min k (selectedIdxs embeddings centroids).length ∧
      (selectedIdxs embeddings centroids).Sorted (· < ·) ∧
      ∀ i ∈ selectedIdxs embeddings centroids,
        i ∈ centroids.map (closestSampleIdx embeddings)) := by
  constructor
  · intro hle
    unfold extract_key_chunks
    simp [hle]
  · intro hlt
    have hnle : ¬ embeddings.length ≤ k := Nat.not_le.mpr hlt
    refine ⟨?_, ?_, ?_⟩
    · unfold extract_key_chunks
      rw [if_neg hnle, List.length_map]
      have hd : (selectedIdxs embeddings centroids).length ≤ k := by
        unfold selectedIdxs
        calc (dedupConsec ((centroids.map (closestSampleIdx embeddings)).mergeSort
              (fun a b => a ≤ b))).length
            ≤ ((centroids.map (closestSampleIdx embeddings)).mergeSort
              (fun a b => a ≤ b)).length := dedupConsec_length_le _
          _ = (centroids.map (closestSampleIdx embeddings)).length :=
              (List.mergeSort_perm _ _).length_eq
          _ = centroids.length := List.length_map _ _
          _ = k := hk
      exact (Nat.min_eq_right hd).symm
    · unfold selectedIdxs
      have hs : ((centroids.map (closestSampleIdx embeddings)).mergeSort
          (fun a b => a ≤ b)).Sorted (· ≤ ·) := by
        simpa using List.sorted_mergeSort' (centroids.map (closestSampleIdx embeddings))
      exact dedupConsec_sorted hs
    · intro i hi
      unfold selectedIdxs at hi
      exact ((List.mergeSort_perm _ _).mem_iff).mp (dedupConsec_mem hi)

/-- Witness for C3 covering both branches: three samples in two clusters with
K = 2 (n > K), and the n ≤ K identity branch on the same data with K = 3. -/
theorem extract_key_chunks_spec_witness :
    (extract_key_chunks [[(0 : Rat)], [0], [10]] [[(0 : Rat)], [10], [5]] ["a", "b", "c"] 3 =
      ["a", "b", "c"]) ∧
    ((extract_key_chunks [[(0 : Rat)], [0], [10]] [[(0 : Rat)], [10]] ["a", "b", "c"] 2).length =
      min 2 (selectedIdxs [[(0 : Rat)], [0], [10]] [[(0 : Rat)], [10]]).length ∧
    (selectedIdxs [[(0 : Rat)], [0], [10]] [[(0 : Rat)], [10]]).Sorted (· < ·) ∧
    ∀ i ∈ selectedIdxs [[(0 : Rat)], [0], [10]] [[(0 : Rat)], [10]],
      i ∈ [[(0 : Rat)], [10]].map (closestSampleIdx [[(0 : Rat)], [0], [10]])) :=
  ⟨(extract_key_chunks_spec [[(0 : Rat)], [0], [10]] [[(0 : Rat)], [10], [5]]
      ["a", "b", "c"] 3 (by decide)).1 (by decide),
   (extract_key_chunks_spec [[(0 : Rat)], [0], [10]] [[(0 : Rat)], [10]]
      ["a", "b", "c"] 2 (by decide)).2 (by decide)⟩

/-! ### Filename sanitizers

Two distinct sanitizers exist in the source: `OllamaService::sanitize_filename`
(src-tauri/src/services/ollama.rs) — regex-based, with the `"unnamed_file"`
fallback — and `LocalLlmClient::clean_filename`
(file-fairy-llm/src/client.rs) — character-filter based, with the
`FALLBACK_FILENAME = "suggested_filename"` fallback.  Both are embedded.
-/

/-- Character class of the `sanitize_filename` regex `[<>:"/\\|?*]`. -/
def invalidFilenameChar (c : Char) : Bool :=
  c = '<' || c = '>' || c = ':' || c = '"' || c = '/' || c = '\\' ||
  c = '|' || c = '?' || c = '*'

/-- Step 1 of `sanitize_filename`: `replace_all` of the single-character class
regex substitutes each matching character with an underscore. -/
def replaceInvalid (s : List Char) : List Char :=
  s.map (fun c => if invalidFilenameChar c then '_' else c)

/-- Left-to-right scan of `replace_all` for regex `_+`: emit one underscore at
the start of each maximal underscore run (`inRun` records whether the previous
character was part of a run). -/
def collapseUnderscoresGo (inRun : Bool) : List Char → List Char
  | [] => []
  | c :: rest =>
    if c = '_' then
      if inRun then collapseUnderscoresGo true rest
      else '_' :: collapseUnderscoresGo true rest
    else c :: collapseUnderscoresGo false rest

/-- Step 2 of `sanitize_filename`: `replace_all` of regex `_+` replaces each
maximal run of underscores with a single underscore. -/
def collapseUnderscores (s : List Char) : List Char :=
  collapseUnderscoresGo false s

/-- Right-to-left `dropWhile`, for trimming trailing characters. -/
def dropWhileRight (p : Char → Bool) (s : List Char) : List Char :=
  (s.reverse.dropWhile p).reverse

/-- Trim characters satisfying `p` from both ends (Rust `trim_matches` /
`trim`). -/
def trimBy (p : Char → Bool) (s : List Char) : List Char :=
  dropWhileRight p (s.dropWhile p)

/-- Predicate of step 3 of `sanitize_filename`: `|c| c == '.' || c == ' '`. -/
def dotSpace (c : Char) : Bool := c = '.' || c = ' '

/-- Rust `char::is_whitespace` (the Unicode White_Space property). -/
def isRustWhitespace (c : Char) : Bool :=
  c.toNat = 0x09 || c.toNat = 0x0A || c.toNat = 0x0B || c.toNat = 0x0C ||
  c.toNat = 0x0D || c.toNat = 0x20 || c.toNat = 0x85 || c.toNat = 0xA0 ||
  c.toNat = 0x1680 || (0x2000 ≤ c.toNat && c.toNat ≤ 0x200A) ||
  c.toNat = 0x2028 || c.toNat = 0x2029 || c.toNat = 0x202F ||
  c.toNat = 0x205F || c.toNat = 0x3000

/-- Rust `char::is_control` (the Unicode Cc category). -/
def isRustControl (c : Char) : Bool :=
  c.toNat < 0x20 || (0x7F ≤ c.toNat && c.toNat ≤ 0x9F)

/-- UTF-8 byte length of a string, for the `ext.len()` byte count in the
truncation step. -/
def utf8Len (s : List Char) : Nat := (s.map Char.utf8Size).sum

/-- Stem/extension split of `Path::file_stem` / `Path::extension` for a plain
file name (no separators — the sanitizer has already replaced `/` and `\`):
no embedded dot gives no extension; a leading dot with no other dot is all
stem; otherwise split at the last dot.  A Rust `Some("")` extension (name
ending in a dot) is represented as `[]`, which the caller treats identically
to `None` via `ext.is_empty()`. -/
def notDot (c : Char) : Bool := c ≠ '.'

def splitStemExt (s : List Char) : List Char × List Char :=
  let revExt := s.reverse.takeWhile notDot
  if revExt.length = s.length then (s, [])
  else if s.head? = some '.' ∧ revExt.length = s.length - 1 then (s, [])
  else (s.take (s.length - revExt.length - 1), revExt.reverse)

/-- Steps 1–3 of `sanitize_filename`: replace invalid characters, collapse
underscore runs, trim leading/trailing dots and spaces. -/
def sanitizeCore (s : List Char) : List Char :=
  trimBy dotSpace (collapseUnderscores (replaceInvalid s))

/-- Step 4 of `sanitize_filename`: when the result exceeds 200 codepoints,
truncate the stem so that stem plus the extension's UTF-8 byte length plus the
separating dot fit in 200, preserving the extension. -/
def sanitizeTruncate (s3 : List Char) : List Char :=
  if 200 < s3.length then
    if (splitStemExt s3).2 = [] then (splitStemExt s3).1.take 200
    else
      (splitStemExt s3).1.take (200 - (utf8Len (splitStemExt s3).2 + 1)) ++
        '.' :: (splitStemExt s3).2
  else s3

/-- Embedding of `OllamaService::sanitize_filename`: replace the invalid
characters with underscores, collapse underscore runs, trim leading/trailing
dots and spaces, truncate to 200 codepoints preserving the extension, and
fall back to `"unnamed_file"` when empty. -/
def sanitize_filename (s : List Char) : List Char :=
  if sanitizeTruncate (sanitizeCore s) = [] then "unnamed_file".toList
  else sanitizeTruncate (sanitizeCore s)

/-- First line of a string as `str::lines().next().unwrap_or(raw)` yields it:
up to the first line feed, with one trailing carriage return stripped when the
line was terminated by the line feed. -/
def rustFirstLine (s : List Char) : List Char :=
  let t := s.takeWhile (fun c => c ≠ '\n')
  if '\n' ∈ s ∧ t.getLast? = some '\r' then t.dropLast else t

/-- Single left-to-right pass of `str::replace("  ", " ")`: each
non-overlapping occurrence of two spaces becomes one space. -/
def replaceTwoSpaces : List Char → List Char
  | c1 :: c2 :: rest =>
    if c1 = ' ' ∧ c2 = ' ' then ' ' :: replaceTwoSpaces rest
    else c1 :: replaceTwoSpaces (c2 :: rest)
  | l => l

/-- Core of `LocalLlmClient::clean_filename` before the empty check: first
line, trim, keep alphanumerics / underscore / hyphen / space, trim again,
replace double spaces once, then spaces to underscores.  Rust's Unicode
`char::is_alphanumeric` table is passed in as `isAlnum`. -/
def cleanFilenameCore (isAlnum : Char → Bool) (raw : List Char) : List Char :=
  let l1 := trimBy isRustWhitespace (rustFirstLine raw)
  let l2 := l1.filter (fun c => isAlnum c || c = '_' || c = '-' || c = ' ')
  let l3 := trimBy isRustWhitespace l2
  let l4 := replaceTwoSpaces l3
  l4.map (fun c => if c = ' ' then '_' else c)

/-- Embedding of `LocalLlmClient::clean_filename`: the cleaned core, or the
constant `FALLBACK_FILENAME = "suggested_filename"` when it is empty. -/
def clean_filename (isAlnum : Char → Bool) (raw : List Char) : List Char :=
  let c := cleanFilenameCore isAlnum raw
  if c = [] then "suggested_filename".toList else c

/-- Embedding of the tail of `OllamaService::generate_ai_file_name`: sanitize
the model response and return `format!("{}.{}", suggested_name,
file_extension)` — unconditionally, extension present or not. -/
def generate_ai_file_name (llmResponse fileExtension : List Char) : List Char :=
  sanitize_filename llmResponse ++ '.' :: fileExtension

/-- Embedding of the filename assembly of `RenamerService::generate_new_filename`:
the extension is `path.extension().and_then(to_str).unwrap_or("")` of the
file name, then `generate_ai_file_name` formats the result. -/
def generate_new_filename (pathFileName llmResponse : List Char) : List Char :=
  generate_ai_file_name llmResponse (splitStemExt pathFileName).2

/-- Absence of adjacent underscores, checked pairwise left to right. -/
def noDoubleUnderscore : List Char → Bool
  | [] => true
  | c :: rest => (!(c = '_' && rest.head? = some '_')) && noDoubleUnderscore rest

/-- ASCII character class `[A-Za-z0-9_-]` of the claimed output regex. -/
def asciiWordChar (c : Char) : Bool :=
  c.isAlpha || c.isDigit || c = '_' || c = '-'

lemma mem_replaceInvalid {s : List Char} {c : Char} (h : c ∈ replaceInvalid s) :
    (c ∈ s ∧ invalidFilenameChar c = false) ∨ c = '_' := by
  obtain ⟨x, hx, hfx⟩ := List.mem_map.mp h
  by_cases hinv : invalidFilenameChar x
  · right
    simp [hinv] at hfx
    exact hfx.symm
  · left
    simp [hinv] at hfx
    subst hfx
    exact ⟨hx, by simpa using hinv⟩

lemma invalid_free_replaceInvalid {s : List Char} {c : Char}
    (h : c ∈ replaceInvalid s) : invalidFilenameChar c = false := by
  rcases mem_replaceInvalid h with ⟨_, hf⟩ | rfl
  · exact hf
  · decide

lemma mem_collapseUnderscoresGo :
    ∀ (b : Bool) (l : List Char) (c : Char), c ∈ collapseUnderscoresGo b l →
      c ∈ l ∨ c = '_' := by
  intro b l
  induction l generalizing b with
  | nil => intro c hc; simp [collapseUnderscoresGo] at hc
  | cons a rest ih =>
    intro c hc
    by_cases ha : a = '_'
    · subst ha
      cases b with
      | true =>
        simp only [collapseUnderscoresGo, if_pos rfl] at hc
        rcases ih true c hc with h | h
        · exact Or.inl (List.mem_cons.mpr (Or.inr h))
        · exact Or.inr h
      | false =>
        simp only [collapseUnderscoresGo, if_pos rfl] at hc
        rcases List.mem_cons.mp hc with h | h
        · exact Or.inr h
        · rcases ih true c h with h2 | h2
          · exact Or.inl (List.mem_cons.mpr (Or.inr h2))
          · exact Or.inr h2
    · simp only [collapseUnderscoresGo, if_neg ha] at hc
      rcases List.mem_cons.mp hc with h | h
      · exact Or.inl (List.mem_cons.mpr (Or.inl h))
      · rcases ih false c h with h2 | h2
        · exact Or.inl (List.mem_cons.mpr (Or.inr h2))
        · exact Or.inr h2

lemma head_collapseUnderscoresGo_true (l : List Char) :
    (collapseUnderscoresGo true l).head? ≠ some '_' := by
  induction l with
  | nil => simp [collapseUnderscoresGo]
  | cons a rest ih =>
    by_cases ha : a = '_'
    · subst ha
      simpa [collapseUnderscoresGo] using ih
    · simp [collapseUnderscoresGo, ha]

lemma noDoubleUnderscore_collapseGo :
    ∀ (b : Bool) (l : List Char),
      noDoubleUnderscore (collapseUnderscoresGo b l) = true := by
  intro b l
  induction l generalizing b with
  | nil => cases b <;> simp [collapseUnderscoresGo, noDoubleUnderscore]
  | cons a rest ih =>
    by_cases ha : a = '_'
    · subst ha
      cases b with
      | true => simpa [collapseUnderscoresGo] using ih true
      | false =>
        simp only [collapseUnderscoresGo, if_pos rfl]
        simp only [noDoubleUnderscore]
        have hh := head_collapseUnderscoresGo_true rest
        simp [hh, ih true]
    · simp only [collapseUnderscoresGo, if_neg ha]
      rw [noDoubleUnderscore]
      have : (a = '_' && (collapseUnderscoresGo false rest).head? = some '_') = false := by
        simp only [Bool.and_eq_false_iff]
        left
        simpa using ha
      rw [this]
      simpa using ih false

lemma noDoubleUnderscore_append_left {a b : List Char}
    (h : noDoubleUnderscore (a ++ b) = true) : noDoubleUnderscore a = true := by
  induction a with
  | nil => rfl
  | cons c rest ih =>
    rw [List.cons_append, noDoubleUnderscore, Bool.and_eq_true] at h
    rw [noDoubleUnderscore, Bool.and_eq_true]
    refine ⟨?_, ih h.2⟩
    rcases h with ⟨h1, _⟩
    cases rest with
    | nil => simp
    | cons d rest2 => simpa using h1

lemma noDoubleUnderscore_append_right {a b : List Char}
    (h : noDoubleUnderscore (a ++ b) = true) : noDoubleUnderscore b = true := by
  induction a with
  | nil => simpa using h
  | cons c rest ih =>
    rw [List.cons_append, noDoubleUnderscore, Bool.and_eq_true] at h
    exact ih h.2

lemma noDoubleUnderscore_append_mid {a b : List Char} {m : Char}
    (hm : m ≠ '_') (ha : noDoubleUnderscore a = true)
    (hb : noDoubleUnderscore b = true) :
    noDoubleUnderscore (a ++ m :: b) = true := by
  induction a with
  | nil =>
    rw [List.nil_append, noDoubleUnderscore, Bool.and_eq_true]
    exact ⟨by simp [hm], hb⟩
  | cons c rest ih =>
    rw [noDoubleUnderscore, Bool.and_eq_true] at ha
    rw [List.cons_append, noDoubleUnderscore, Bool.and_eq_true]
    refine ⟨?_, ih ha.2⟩
    rcases ha with ⟨h1, _⟩
    cases rest with
    | nil => simp [hm]
    | cons d rest2 => simpa using h1

/-- Decomposition of the right trim: a list is its right-trimmed part followed
by the trimmed-off tail. -/
lemma dropWhileRight_decomp (p : Char → Bool) (s : List Char) :
    s = dropWhileRight p s ++ (s.reverse.takeWhile p).reverse := by
  unfold dropWhileRight
  conv_lhs => rw [← List.reverse_reverse s,
    ← List.takeWhile_append_dropWhile (p := p) (l := s.reverse)]
  rw [List.reverse_append]

/-- Decomposition of the two-sided trim: a list is a trimmed-off head, the
trimmed core, and a trimmed-off tail. -/
lemma trimBy_decomp (p : Char → Bool) (s : List Char) :
    s = s.takeWhile p ++ (trimBy p s ++ ((s.dropWhile p).reverse.takeWhile p).reverse) := by
  unfold trimBy
  rw [← dropWhileRight_decomp p (s.dropWhile p)]
  exact (List.takeWhile_append_dropWhile (p := p) (l := s)).symm

lemma noDoubleUnderscore_trimBy {p : Char → Bool} {s : List Char}
    (h : noDoubleUnderscore s = true) : noDoubleUnderscore (trimBy p s) = true := by
  have hd := trimBy_decomp p s
  rw [hd] at h
  exact noDoubleUnderscore_append_left (noDoubleUnderscore_append_right h)

lemma mem_trimBy {p : Char → Bool} {s : List Char} {c : Char}
    (h : c ∈ trimBy p s) : c ∈ s := by
  unfold trimBy dropWhileRight at h
  rw [List.mem_reverse] at h
  have h2 := (List.dropWhile_sublist (l := (s.dropWhile p).reverse) p).mem h
  rw [List.mem_reverse] at h2
  exact (List.dropWhile_sublist (l := s) p).mem h2

lemma mem_splitStemExt_stem {s : List Char} {c : Char}
    (h : c ∈ (splitStemExt s).1) : c ∈ s := by
  unfold splitStemExt at h
  by_cases h1 : (s.reverse.takeWhile notDot).length = s.length
  · simpa [h1] using h
  · by_cases h2 : s.head? = some '.' ∧
        (s.reverse.takeWhile notDot).length = s.length - 1
    · simp only [if_neg h1, if_pos h2] at h
      exact h
    · simp only [if_neg h1, if_neg h2] at h
      exact (List.take_sublist _ s).mem h

lemma mem_splitStemExt_ext {s : List Char} {c : Char}
    (h : c ∈ (splitStemExt s).2) : c ∈ s := by
  unfold splitStemExt at h
  by_cases h1 : (s.reverse.takeWhile notDot).length = s.length
  · simp [h1] at h
  · by_cases h2 : s.head? = some '.' ∧
        (s.reverse.takeWhile notDot).length = s.length - 1
    · simp [h1, h2] at h
    · simp only [if_neg h1, if_neg h2] at h
      rw [List.mem_reverse] at h
      have := (List.takeWhile_sublist (l := s.reverse) notDot).mem h
      rwa [List.mem_reverse] at this

lemma splitStemExt_stem_isTake (s : List Char) :
    ∃ n, (splitStemExt s).1 = s.take n := by
  unfold splitStemExt
  by_cases h1 : (s.reverse.takeWhile notDot).length = s.length
  · exact ⟨s.length, by simp [h1]⟩
  · by_cases h2 : s.head? = some '.' ∧
        (s.reverse.takeWhile notDot).length = s.length - 1
    · exact ⟨s.length, by simp [h1, h2]⟩
    · exact ⟨s.length - (s.reverse.takeWhile notDot).length - 1,
        by simp [h1, h2]⟩

lemma splitStemExt_ext_isSuffix (s : List Char) :
    ∃ a, s = a ++ (splitStemExt s).2 := by
  unfold splitStemExt
  by_cases h1 : (s.reverse.takeWhile notDot).length = s.length
  · exact ⟨s, by simp [h1]⟩
  · by_cases h2 : s.head? = some '.' ∧
        (s.reverse.takeWhile notDot).length = s.length - 1
    · exact ⟨s, by simp [h1, h2]⟩
    · refine ⟨(s.reverse.dropWhile notDot).reverse, ?_⟩
      simp only [if_neg h1, if_neg h2]
      conv_lhs => rw [← List.reverse_reverse s,
        ← List.takeWhile_append_dropWhile (p := notDot) (l := s.reverse)]
      rw [List.reverse_append]

lemma dot_mem_of_ext_ne_nil {s : List Char} (h : (splitStemExt s).2 ≠ []) :
    '.' ∈ s := by
  by_contra hdot
  apply h
  unfold splitStemExt
  have hall : s.reverse.takeWhile notDot = s.reverse := by
    apply List.takeWhile_eq_self_iff.mpr
    intro c hc
    rw [List.mem_reverse] at hc
    unfold notDot
    simp only [ne_eq, decide_eq_true_eq, Bool.not_eq_true, decide_eq_false_iff_not]
    intro hcd
    exact hdot (hcd ▸ hc)
  rw [if_pos (by rw [hall, List.length_reverse])]

/-- C5 counterexample: `sanitize_filename` passes through characters outside
its small invalid set, so the output need not match `[A-Za-z0-9_-]+` even
after space-to-underscore substitution: the input "!" is returned verbatim. -/
theorem sanitize_filename_charset_cex :
    sanitize_filename ['!'] = ['!'] ∧
    ((sanitize_filename ['!']).map
      (fun c => if c = ' ' then '_' else c)).all asciiWordChar = false := by
  constructor
  · rfl
  · rfl

/-- C5 (amended).  Character handling of `sanitize_filename`: the output never
contains one of the replaced characters and never contains two adjacent
underscores, and apart from the `"unnamed_file"` fallback every output
character is an input character or an underscore (only the nine characters of
the invalid class are replaced — all other characters, spaces included, pass
through unchanged). -/
theorem sanitize_filename_charset (s : List Char) :
    (∀ c ∈ sanitize_filename s, invalidFilenameChar c = false) ∧
    noDoubleUnderscore (sanitize_filename s) = true ∧
    (sanitize_filename s = "unnamed_file".toList ∨
      ∀ c ∈ sanitize_filename s, c ∈ s ∨ c = '_') := by
  have hmem3 : ∀ c ∈ sanitizeCore s, c ∈ s ∨ c = '_' := by
    intro c hc
    have hc2 := mem_trimBy hc
    rcases mem_collapseUnderscoresGo false _ c hc2 with h | h
    · rcases mem_replaceInvalid h with ⟨hmem, _⟩ | h2
      · exact Or.inl hmem
      · exact Or.inr h2
    · exact Or.inr h
  have hinv3 : ∀ c ∈ sanitizeCore s, invalidFilenameChar c = false := by
    intro c hc
    rcases hmem3 c hc with _ | rfl
    · have hc2 := mem_trimBy hc
      rcases mem_collapseUnderscoresGo false _ c hc2 with h | h
      · exact invalid_free_replaceInvalid h
      · subst h; decide
    · decide
  have hdu3 : noDoubleUnderscore (sanitizeCore s) = true :=
    noDoubleUnderscore_trimBy (noDoubleUnderscore_collapseGo false _)
  -- push the three properties through the truncation step
  have hmem4 : ∀ c ∈ sanitizeTruncate (sanitizeCore s), c ∈ s ∨ c = '_' := by
    intro c hc
    unfold sanitizeTruncate at hc
    by_cases hlen : 200 < (sanitizeCore s).length
    · rw [if_pos hlen] at hc
      by_cases hext : (splitStemExt (sanitizeCore s)).2 = []
      · rw [if_pos hext] at hc
        exact hmem3 c (mem_splitStemExt_stem ((List.take_sublist _ _).mem hc))
      · rw [if_neg hext] at hc
        rcases List.mem_append.mp hc with h | h
        · exact hmem3 c (mem_splitStemExt_stem ((List.take_sublist _ _).mem h))
        · rcases List.mem_cons.mp h with rfl | h2
          · have hdot : '.' ∈ sanitizeCore s := dot_mem_of_ext_ne_nil hext
            rcases hmem3 '.' hdot with h3 | h3
            · exact Or.inl h3
            · exact absurd h3 (by decide)
          · exact hmem3 c (mem_splitStemExt_ext h2)
    · rw [if_neg hlen] at hc
      exact hmem3 c hc
  have hinv4 : ∀ c ∈ sanitizeTruncate (sanitizeCore s),
      invalidFilenameChar c = false := by
    intro c hc
    unfold sanitizeTruncate at hc
    by_cases hlen : 200 < (sanitizeCore s).length
    · rw [if_pos hlen] at hc
      by_cases hext : (splitStemExt (sanitizeCore s)).2 = []
      · rw [if_pos hext] at hc
        exact hinv3 c (mem_splitStemExt_stem ((List.take_sublist _ _).mem hc))
      · rw [if_neg hext] at hc
        rcases List.mem_append.mp hc with h | h
        · exact hinv3 c (mem_splitStemExt_stem ((List.take_sublist _ _).mem h))
        · rcases List.mem_cons.mp h with rfl | h2
          · decide
          · exact hinv3 c (mem_splitStemExt_ext h2)
    · rw [if_neg hlen] at hc
      exact hinv3 c hc
  have hdu4 : noDoubleUnderscore (sanitizeTruncate (sanitizeCore s)) = true := by
    unfold sanitizeTruncate
    by_cases hlen : 200 < (sanitizeCore s).length
    · rw [if_pos hlen]
      obtain ⟨n, hstem⟩ := splitStemExt_stem_isTake (sanitizeCore s)
      have hdustem : ∀ m : Nat,
          noDoubleUnderscore ((splitStemExt (sanitizeCore s)).1.take m) = true := by
        intro m
        rw [hstem, List.take_take]
        have := hdu3
        conv at this => rw [← List.take_append_drop (min m n) (sanitizeCore s)]
        exact noDoubleUnderscore_append_left this
      by_cases hext : (splitStemExt (sanitizeCore s)).2 = []
      · rw [if_pos hext]
        exact hdustem 200
      · rw [if_neg hext]
        obtain ⟨a, ha⟩ := splitStemExt_ext_isSuffix (sanitizeCore s)
        have hduext : noDoubleUnderscore (splitStemExt (sanitizeCore s)).2 = true := by
          have := hdu3
          rw [ha] at this
          exact noDoubleUnderscore_append_right this
        exact noDoubleUnderscore_append_mid (by decide) (hdustem _) hduext
    · rw [if_neg hlen]
      exact hdu3
  unfold sanitize_filename
  by_cases hempty : sanitizeTruncate (sanitizeCore s) = []
  · rw [if_pos hempty]
    refine ⟨by decide, by decide, Or.inl rfl⟩
  · rw [if_neg hempty]
    exact ⟨hinv4, hdu4, Or.inr hmem4⟩

/-- C6 counterexample: an input whose sanitized form is empty is mapped by
`sanitize_filename` to `"unnamed_file"`, not to the claimed constant
`suggested_filename`. -/
theorem sanitize_fallback_cex :
    sanitize_filename ['.'] = "unnamed_file".toList ∧
    sanitize_filename ['.'] ≠ "suggested_filename".toList := by
  constructor
  · rfl
  · decide

/-- C6 (amended).  Empty-result fallbacks: the Tauri-side `sanitize_filename`
substitutes `"unnamed_file"` when its sanitized form is empty, while the
`suggested_filename` constant is the fallback of the LLM client's
`clean_filename` when its cleaned form is empty. -/
theorem empty_fallback_filenames (s : List Char) (isAlnum : Char → Bool)
    (raw : List Char)
    (h1 : sanitizeCore s = [])
    (h2 : cleanFilenameCore isAlnum raw = []) :
    sanitize_filename s = "unnamed_file".toList ∧
    clean_filename isAlnum raw = "suggested_filename".toList := by
  constructor
  · unfold sanitize_filename sanitizeTruncate
    rw [h1]
    simp
  · unfold clean_filename
    rw [h2]
    simp

/-- Witness for C6 at concrete inputs with empty sanitized forms. -/
theorem empty_fallback_filenames_witness :
    sanitize_filename ['.'] = "unnamed_file".toList ∧
    clean_filename (fun _ => false) [' '] = "suggested_filename".toList :=
  empty_fallback_filenames ['.'] (fun _ => false) [' '] (by rfl) (by rfl)

/-- C7.  On a file with no extension the suggestion pipeline still appends the
extension separator: the unconditional format string of
`generate_ai_file_name` yields a name with a trailing dot instead of the stem
alone required by the spec. -/
theorem generate_new_filename_trailing_dot :
    generate_new_filename "README".toList "project_overview".toList =
      "project_overview.".toList ∧
    generate_new_filename "README".toList "project_overview".toList ≠
      "project_overview".toList := by
  constructor
  · rfl
  · decide

/-! ### Text cleaner (`ExtractionService::clean_content`)

The cleaner removes control characters except line feed and tab, collapses
space/tab runs via regex `[ \t]+` to one space, collapses blank-line runs via
regex `\n\s*\n\s*\n+` to two line feeds, trims every line, and trims the whole
string.  `replace_all` is embedded as a left-to-right scan; for the blank-line
regex, leftmost-first matching with greedy backtracking matches, at each line
feed whose maximal following whitespace run contains at least two more line
feeds, the span up to the last line feed of that run.
-/

/-- Filter of step 1: remove control characters except line feed and tab. -/
def keepChar (c : Char) : Bool :=
  !(isRustControl c) || c = '\n' || c = '\t'

/-- Character class `[ \t]` of the space-collapsing regex. -/
def spaceTab (c : Char) : Bool := c = ' ' || c = '\t'

/-- Left-to-right scan of `replace_all` for regex `[ \t]+`: emit one space at
the start of each maximal space/tab run. -/
def collapseSpaceTabGo (inRun : Bool) : List Char → List Char
  | [] => []
  | c :: rest =>
    if spaceTab c then
      if inRun then collapseSpaceTabGo true rest
      else ' ' :: collapseSpaceTabGo true rest
    else c :: collapseSpaceTabGo false rest

/-- Step 2 of `clean_content`: replace each maximal space/tab run with a
single space. -/
def collapseSpaceTab (s : List Char) : List Char := collapseSpaceTabGo false s

/-- Complement of the line-feed character, used to scan within one line. -/
def notNl (c : Char) : Bool := c ≠ '\n'

/-- Portion of a list strictly after its last line feed (the whole list when
it holds none). -/
def afterLastNl (l : List Char) : List Char :=
  (l.reverse.takeWhile notNl).reverse

/-- Step 3 of `clean_content`: scan of `replace_all` for `\n\s*\n\s*\n+`.  At
a line feed whose following maximal whitespace run holds two or more further
line feeds, the match extends to the last line feed of the run and is replaced
by two line feeds; scanning resumes right after it. -/
def collapseBlank : List Char → List Char
  | [] => []
  | c :: rest =>
    if c = '\n' then
      if 2 ≤ (rest.takeWhile isRustWhitespace).count '\n' then
        '\n' :: '\n' :: collapseBlank
          (afterLastNl (rest.takeWhile isRustWhitespace) ++
            rest.dropWhile isRustWhitespace)
      else '\n' :: collapseBlank rest
    else c :: collapseBlank rest
  termination_by l => l.length
  decreasing_by
  · simp only [List.length_append, List.length_cons]
    have h1 : (afterLastNl (rest.takeWhile isRustWhitespace)).length ≤
        (rest.takeWhile isRustWhitespace).length := by
      unfold afterLastNl
      rw [List.length_reverse]
      calc (List.takeWhile notNl (rest.takeWhile isRustWhitespace).reverse).length
          ≤ (rest.takeWhile isRustWhitespace).reverse.length :=
            (List.takeWhile_sublist _).length_le
        _ = (rest.takeWhile isRustWhitespace).length := List.length_reverse _
    have h2 : (rest.takeWhile isRustWhitespace).length +
        (rest.dropWhile isRustWhitespace).length = rest.length := by
      rw [← List.length_append, List.takeWhile_append_dropWhile]
    omega
  · simp
  · simp

/-- Step 4 of `clean_content`: split on line feeds, trim each line
(`str::trim`, Unicode whitespace), join with line feeds. -/
def trimLines (s : List Char) : List Char :=
  if h : '\n' ∈ s then
    trimBy isRustWhitespace (s.takeWhile notNl) ++
      '\n' :: trimLines ((s.dropWhile notNl).tail)
  else trimBy isRustWhitespace s
  termination_by s.length
  decreasing_by
  have h1 : (s.dropWhile notNl).length ≤ s.length :=
    (List.dropWhile_sublist _).length_le
  have h2 : s ≠ [] := List.ne_nil_of_mem h
  have h3 : 0 < s.length := List.length_pos.mpr h2
  rw [List.length_tail]
  omega

/-- Embedding of `ExtractionService::clean_content`: early return on empty
input, then the five cleaning steps in order. -/
def clean_content (s : List Char) : List Char :=
  if s = [] then []
  else trimBy isRustWhitespace
    (trimLines (collapseBlank (collapseSpaceTab (s.filter keepChar))))

/-- Absence of tabs and of adjacent double spaces — exactly the strings on
which the space/tab collapsing pass is the identity. -/
def noTabDoubleSpace : List Char → Bool
  | [] => true
  | c :: rest =>
    (!(c = '\t')) && (!(c = ' ' && rest.head? = some ' ')) && noTabDoubleSpace rest

/-- Absence of blank-run matches: no line feed is followed by a whitespace run
holding two or more further line feeds — exactly the strings on which the
blank-line collapsing pass is the identity. -/
def noBlankRun : List Char → Bool
  | [] => true
  | c :: rest =>
    (!(c = '\n' && decide (2 ≤ (rest.takeWhile isRustWhitespace).count '\n'))) &&
      noBlankRun rest

lemma noTabDoubleSpace_cons {c : Char} {rest : List Char}
    (h : noTabDoubleSpace (c :: rest) = true) : noTabDoubleSpace rest = true := by
  simp only [noTabDoubleSpace, Bool.and_eq_true] at h
  exact h.2

lemma noBlankRun_cons {c : Char} {rest : List Char}
    (h : noBlankRun (c :: rest) = true) : noBlankRun rest = true := by
  simp only [noBlankRun, Bool.and_eq_true] at h
  exact h.2

lemma noTabDoubleSpace_append_left {a b : List Char}
    (h : noTabDoubleSpace (a ++ b) = true) : noTabDoubleSpace a = true := by
  induction a with
  | nil => rfl
  | cons c rest ih =>
    rw [List.cons_append] at h
    simp only [noTabDoubleSpace, Bool.and_eq_true] at h ⊢
    refine ⟨⟨h.1.1, ?_⟩, ih h.2⟩
    rcases h with ⟨⟨_, h1⟩, _⟩
    cases rest with
    | nil => simp
    | cons d rest2 => simpa using h1

lemma noTabDoubleSpace_append_right {a b : List Char}
    (h : noTabDoubleSpace (a ++ b) = true) : noTabDoubleSpace b = true := by
  induction a with
  | nil => simpa using h
  | cons c rest ih => exact ih (noTabDoubleSpace_cons h)

lemma noTabDoubleSpace_append_mid {a b : List Char} {m : Char}
    (hm1 : m ≠ '\t') (hm2 : m ≠ ' ') (ha : noTabDoubleSpace a = true)
    (hb : noTabDoubleSpace b = true) :
    noTabDoubleSpace (a ++ m :: b) = true := by
  induction a with
  | nil =>
    rw [List.nil_append]
    simp only [noTabDoubleSpace, Bool.and_eq_true]
    exact ⟨⟨by simp [hm1], by simp [hm2]⟩, hb⟩
  | cons c rest ih =>
    simp only [noTabDoubleSpace, Bool.and_eq_true] at ha
    rw [List.cons_append]
    simp only [noTabDoubleSpace, Bool.and_eq_true]
    refine ⟨⟨ha.1.1, ?_⟩, ih ha.2⟩
    rcases ha with ⟨⟨_, h1⟩, _⟩
    cases rest with
    | nil => simp [hm2]
    | cons d rest2 => simpa using h1

lemma head_collapseSpaceTabGo_true {l : List Char} {c : Char}
    (h : (collapseSpaceTabGo true l).head? = some c) : spaceTab c = false := by
  induction l with
  | nil => simp [collapseSpaceTabGo] at h
  | cons a rest ih =>
    by_cases ha : spaceTab a
    · simp only [collapseSpaceTabGo, if_pos ha, if_pos rfl] at h
      exact ih h
    · simp only [collapseSpaceTabGo, if_neg ha, Option.some.injEq] at h
      simp only [List.head?_cons, Option.some.injEq] at h
      subst h
      simpa using ha

lemma noTabDoubleSpace_collapseGo :
    ∀ (b : Bool) (l : List Char),
      noTabDoubleSpace (collapseSpaceTabGo b l) = true := by
  intro b l
  induction l generalizing b with
  | nil => cases b <;> simp [collapseSpaceTabGo, noTabDoubleSpace]
  | cons a rest ih =>
    by_cases ha : spaceTab a
    · cases b with
      | true => simpa [collapseSpaceTabGo, ha] using ih true
      | false =>
        simp only [collapseSpaceTabGo, if_pos ha]
        simp only [noTabDoubleSpace, Bool.and_eq_true]
        refine ⟨⟨by simp, ?_⟩, ih true⟩
        cases hh : (collapseSpaceTabGo true rest).head? with
        | none => simp
        | some d =>
          have := head_collapseSpaceTabGo_true hh
          have hd : d ≠ ' ' := by
            intro hds
            subst hds
            simp [spaceTab] at this
          simp [hd]
    · simp only [collapseSpaceTabGo, if_neg ha]
      simp only [noTabDoubleSpace, Bool.and_eq_true]
      have ha1 : a ≠ '\t' := by
        intro h1; subst h1; simp [spaceTab] at ha
      have ha2 : a ≠ ' ' := by
        intro h1; subst h1; simp [spaceTab] at ha
      exact ⟨⟨by simp [ha1], by simp [ha2]⟩, ih false⟩

lemma mem_collapseSpaceTabGo :
    ∀ (b : Bool) (l : List Char) (c : Char), c ∈ collapseSpaceTabGo b l →
      c ∈ l ∨ c = ' ' := by
  intro b l
  induction l generalizing b with
  | nil => intro c hc; simp [collapseSpaceTabGo] at hc
  | cons a rest ih =>
    intro c hc
    by_cases ha : spaceTab a
    · cases b with
      | true =>
        simp only [collapseSpaceTabGo, if_pos ha, if_pos rfl] at hc
        rcases ih true c hc with h | h
        · exact Or.inl (List.mem_cons.mpr (Or.inr h))
        · exact Or.inr h
      | false =>
        simp only [collapseSpaceTabGo, if_pos ha] at hc
        rcases List.mem_cons.mp hc with h | h
        · exact Or.inr h
        · rcases ih true c h with h2 | h2
          · exact Or.inl (List.mem_cons.mpr (Or.inr h2))
          · exact Or.inr h2
    · simp only [collapseSpaceTabGo, if_neg ha] at hc
      rcases List.mem_cons.mp hc with h | h
      · exact Or.inl (List.mem_cons.mpr (Or.inl h))
      · rcases ih false c h with h2 | h2
        · exact Or.inl (List.mem_cons.mpr (Or.inr h2))
        · exact Or.inr h2

lemma collapseGo_true_eq_false {l : List Char}
    (h : ∀ d, l.head? = some d → spaceTab d = false) :
    collapseSpaceTabGo true l = collapseSpaceTabGo false l := by
  cases l with
  | nil => rfl
  | cons d rest =>
    have hd := h d (by simp)
    simp [collapseSpaceTabGo, hd]

lemma collapseSpaceTab_id {s : List Char} (h : noTabDoubleSpace s = true) :
    collapseSpaceTab s = s := by
  unfold collapseSpaceTab
  induction s with
  | nil => rfl
  | cons c rest ih =>
    simp only [noTabDoubleSpace, Bool.and_eq_true] at h
    by_cases hc : spaceTab c
    · have hcs : c = ' ' := by
        rcases Bool.or_eq_true _ _ |>.mp hc with h1 | h1
        · simpa using h1
        · exfalso
          have : c = '\t' := by simpa using h1
          rcases h with ⟨⟨h2, _⟩, _⟩
          rw [this] at h2
          simp at h2
      subst hcs
      have hhead : ∀ d, rest.head? = some d → spaceTab d = false := by
        intro d hd
        rcases h with ⟨⟨_, h1⟩, hrest⟩
        have hd1 : d ≠ ' ' := by
          intro hds
          subst hds
          rw [hd] at h1
          simp at h1
        have hd2 : d ≠ '\t' := by
          intro hdt
          subst hdt
          cases rest with
          | nil => simp at hd
          | cons e r =>
            simp only [List.head?_cons, Option.some.injEq] at hd
            simp only [noTabDoubleSpace, Bool.and_eq_true] at hrest
            rw [← hd] at hrest
            simp at hrest
        simp [spaceTab, hd1, hd2]
      simp only [collapseSpaceTabGo, if_pos hc]
      rw [collapseGo_true_eq_false hhead, ih h.2]
      simp
    · simp only [collapseSpaceTabGo, if_neg hc]
      rw [ih h.2]

/-- Whitespace deletion: `wsDel s t` holds when `t` is `s` with some
whitespace characters removed.  Every cleaning pass after the space
collapsing relates its input and output this way, which is what makes the
no-blank-run invariant survive them. -/
inductive wsDel : List Char → List Char → Prop where
  | nil : wsDel [] []
  | keep (c : Char) {s t : List Char} : wsDel s t → wsDel (c :: s) (c :: t)
  | del (c : Char) {s t : List Char} : isRustWhitespace c = true → wsDel s t →
      wsDel (c :: s) t

lemma wsDel_refl : ∀ s : List Char, wsDel s s := by
  intro s
  induction s with
  | nil => exact wsDel.nil
  | cons c rest ih => exact wsDel.keep c ih

lemma wsDel_append {a a2 b b2 : List Char} (ha : wsDel a a2) (hb : wsDel b b2) :
    wsDel (a ++ b) (a2 ++ b2) := by
  induction ha with
  | nil => simpa using hb
  | keep c _ ih => exact wsDel.keep c ih
  | del c hc _ ih => exact wsDel.del c hc ih

lemma wsDel_all_ws {a : List Char} (h : ∀ c ∈ a, isRustWhitespace c = true) :
    wsDel a [] := by
  induction a with
  | nil => exact wsDel.nil
  | cons c rest ih =>
    exact wsDel.del c (h c (List.mem_cons_self c rest))
      (ih (fun d hd => h d (List.mem_cons.mpr (Or.inr hd))))

lemma wsDel_trans {a b c : List Char} (h1 : wsDel a b) (h2 : wsDel b c) :
    wsDel a c := by
  induction h1 generalizing c with
  | nil => exact h2
  | keep x h ih =>
    cases h2 with
    | keep _ h3 => exact wsDel.keep x (ih h3)
    | del _ hx h3 => exact wsDel.del x hx (ih h3)
  | del x hx h ih => exact wsDel.del x hx (ih h2)

lemma countNl_takeWhile_wsDel {s t : List Char} (h : wsDel s t) :
    (t.takeWhile isRustWhitespace).count '\n' ≤
      (s.takeWhile isRustWhitespace).count '\n' := by
  induction h with
  | nil => simp
  | keep c h ih =>
    by_cases hc : isRustWhitespace c
    · rw [List.takeWhile_cons_of_pos hc, List.takeWhile_cons_of_pos hc,
        List.count_cons, List.count_cons]
      omega
    · rw [List.takeWhile_cons_of_neg hc, List.takeWhile_cons_of_neg hc]
  | del c hc h ih =>
    rw [List.takeWhile_cons_of_pos hc, List.count_cons]
    omega

lemma noBlankRun_wsDel {s t : List Char} (h : wsDel s t)
    (hs : noBlankRun s = true) : noBlankRun t = true := by
  induction h with
  | nil => exact hs
  | keep c h ih =>
    simp only [noBlankRun, Bool.and_eq_true] at hs ⊢
    refine ⟨?_, ih hs.2⟩
    rcases hs with ⟨h1, _⟩
    by_cases hc : c = '\n'
    · subst hc
      simp only [decide_True, Bool.true_and] at h1 ⊢
      have hle := countNl_takeWhile_wsDel h
      simp only [Bool.not_eq_true', decide_eq_false_iff_not] at h1 ⊢
      omega
    · simp [hc]
  | del c hc h ih => exact ih (noBlankRun_cons hs)

lemma wsDel_dropWhile_ws (s : List Char) :
    wsDel s (s.dropWhile isRustWhitespace) := by
  induction s with
  | nil => exact wsDel.nil
  | cons c rest ih =>
    by_cases hc : isRustWhitespace c
    · rw [List.dropWhile_cons_of_pos hc]
      exact wsDel.del c hc ih
    · rw [List.dropWhile_cons_of_neg hc]
      exact wsDel.keep c (wsDel_refl rest)

lemma wsDel_dropWhileRight_ws (s : List Char) :
    wsDel s (dropWhileRight isRustWhitespace s) := by
  have hd := dropWhileRight_decomp isRustWhitespace s
  conv_lhs => rw [hd]
  conv_rhs => rw [← List.append_nil (dropWhileRight isRustWhitespace s)]
  apply wsDel_append (wsDel_refl _)
  apply wsDel_all_ws
  intro c hc
  rw [List.mem_reverse] at hc
  exact List.mem_takeWhile_imp hc

lemma wsDel_trimBy_ws (s : List Char) : wsDel s (trimBy isRustWhitespace s) :=
  wsDel_trans (wsDel_dropWhile_ws s)
    (wsDel_dropWhileRight_ws (s.dropWhile isRustWhitespace))

lemma dropWhile_notNl_eq_cons {s : List Char} (h : '\n' ∈ s) :
    s.dropWhile notNl = '\n' :: (s.dropWhile notNl).tail := by
  induction s with
  | nil => simp at h
  | cons c rest ih =>
    by_cases hc : c = '\n'
    · subst hc
      rw [List.dropWhile_cons_of_neg (by simp [notNl])]
      simp
    · have hmem : '\n' ∈ rest := by
        rcases List.mem_cons.mp h with h1 | h1
        · exact absurd h1.symm hc
        · exact h1
      rw [List.dropWhile_cons_of_pos (by simp [notNl, Ne.symm]; exact fun hh => hc hh)]
      exact ih hmem

lemma takeWhile_dropWhile_notNl_decomp (s : List Char) (h : '\n' ∈ s) :
    s = s.takeWhile notNl ++ '\n' :: (s.dropWhile notNl).tail := by
  conv_lhs => rw [← List.takeWhile_append_dropWhile (p := notNl) (l := s)]
  rw [← dropWhile_notNl_eq_cons h]

lemma wsDel_trimLines (s : List Char) : wsDel s (trimLines s) := by
  rw [trimLines]
  by_cases h : '\n' ∈ s
  · rw [dif_pos h]
    conv_lhs => rw [takeWhile_dropWhile_notNl_decomp s h]
    apply wsDel_append (wsDel_trimBy_ws _)
    exact wsDel.keep '\n' (wsDel_trimLines _)
  · rw [dif_neg h]
    exact wsDel_trimBy_ws s
  termination_by s.length
  decreasing_by
  have h1 : (s.dropWhile notNl).length ≤ s.length :=
    (List.dropWhile_sublist _).length_le
  have h2 : s ≠ [] := List.ne_nil_of_mem h
  have h3 : 0 < s.length := List.length_pos.mpr h2
  rw [List.length_tail]
  omega

lemma not_nl_mem_afterLastNl (l : List Char) : '\n' ∉ afterLastNl l := by
  intro h
  unfold afterLastNl at h
  rw [List.mem_reverse] at h
  have := List.mem_takeWhile_imp h
  simp [notNl] at this

lemma mem_afterLastNl {l : List Char} {c : Char} (h : c ∈ afterLastNl l) :
    c ∈ l := by
  unfold afterLastNl at h
  rw [List.mem_reverse] at h
  have := (List.takeWhile_sublist (l := l.reverse) notNl).mem h
  rwa [List.mem_reverse] at this

lemma afterLastNl_decomp {l : List Char} (h : '\n' ∈ l) :
    ∃ a, l = a ++ '\n' :: afterLastNl l := by
  have hrev : '\n' ∈ l.reverse := List.mem_reverse.mpr h
  have hdrop := dropWhile_notNl_eq_cons hrev
  refine ⟨((l.reverse.dropWhile notNl).tail).reverse, ?_⟩
  conv_lhs => rw [← List.reverse_reverse l,
    ← List.takeWhile_append_dropWhile (p := notNl) (l := l.reverse)]
  rw [hdrop, List.reverse_append, List.reverse_cons, List.append_assoc]
  rfl

lemma takeWhile_ws_append_all {B x : List Char}
    (h : ∀ c ∈ B, isRustWhitespace c = true) :
    (B ++ x).takeWhile isRustWhitespace = B ++ x.takeWhile isRustWhitespace := by
  induction B with
  | nil => simp
  | cons c rest ih =>
    rw [List.cons_append,
      List.takeWhile_cons_of_pos (h c (List.mem_cons_self c rest)), List.cons_append,
      ih (fun d hd => h d (List.mem_cons.mpr (Or.inr hd)))]

lemma takeWhile_ws_dropWhile_ws (l : List Char) :
    (l.dropWhile isRustWhitespace).takeWhile isRustWhitespace = [] := by
  induction l with
  | nil => simp
  | cons c rest ih =>
    by_cases hc : isRustWhitespace c
    · rwa [List.dropWhile_cons_of_pos hc]
    · rw [List.dropWhile_cons_of_neg hc, List.takeWhile_cons_of_neg hc]

lemma mem_takeWhile_ws_ws {l : List Char} {c : Char}
    (h : c ∈ l.takeWhile isRustWhitespace) : isRustWhitespace c = true :=
  List.mem_takeWhile_imp h

lemma wsDel_collapseBlank : ∀ s : List Char, wsDel s (collapseBlank s) := by
  intro s
  induction s using collapseBlank.induct with
  | case1 =>
    rw [collapseBlank]
    exact wsDel.nil
  | case2 rest hcount ih =>
    rw [collapseBlank, if_pos rfl, if_pos hcount]
    have hmem : '\n' ∈ rest.takeWhile isRustWhitespace := by
      apply List.count_pos_iff.mp
      omega
    obtain ⟨a, ha⟩ := afterLastNl_decomp hmem
    have hrest : rest = a ++ '\n' ::
        (afterLastNl (rest.takeWhile isRustWhitespace) ++
          rest.dropWhile isRustWhitespace) := by
      conv_lhs => rw [← List.takeWhile_append_dropWhile
        (p := isRustWhitespace) (l := rest)]
      conv_lhs => rw [ha]
      rw [List.append_assoc, List.cons_append]
    have haws : ∀ d ∈ a, isRustWhitespace d = true := by
      intro d hd
      apply mem_takeWhile_ws_ws (l := rest)
      rw [ha]
      exact List.mem_append.mpr (Or.inl hd)
    conv_lhs => rw [hrest]
    exact wsDel.keep '\n'
      (wsDel_append (wsDel_all_ws haws) (wsDel.keep '\n' ih))
  | case3 rest hcount ih =>
    rw [collapseBlank, if_pos rfl, if_neg hcount]
    exact wsDel.keep '\n' ih
  | case4 c rest hc ih =>
    rw [collapseBlank, if_neg hc]
    exact wsDel.keep c ih

lemma count_takeWhile_ws_tail_zero (rest : List Char) :
    ((afterLastNl (rest.takeWhile isRustWhitespace) ++
      rest.dropWhile isRustWhitespace).takeWhile isRustWhitespace).count '\n' = 0 := by
  have hBws : ∀ c ∈ afterLastNl (rest.takeWhile isRustWhitespace),
      isRustWhitespace c = true := by
    intro c hc
    exact mem_takeWhile_ws_ws (mem_afterLastNl hc)
  rw [takeWhile_ws_append_all hBws, takeWhile_ws_dropWhile_ws, List.append_nil]
  exact List.count_eq_zero_of_not_mem (not_nl_mem_afterLastNl _)

lemma noBlankRun_collapseBlank : ∀ s : List Char,
    noBlankRun (collapseBlank s) = true := by
  intro s
  induction s using collapseBlank.induct with
  | case1 => rw [collapseBlank]; rfl
  | case2 rest hcount ih =>
    rw [collapseBlank, if_pos rfl, if_pos hcount]
    have h0 := count_takeWhile_ws_tail_zero rest
    have h1 := countNl_takeWhile_wsDel (wsDel_collapseBlank
      (afterLastNl (rest.takeWhile isRustWhitespace) ++
        rest.dropWhile isRustWhitespace))
    simp only [noBlankRun, Bool.and_eq_true]
    refine ⟨?_, ⟨?_, ih⟩⟩
    · have hnl : isRustWhitespace '\n' = true := by decide
      rw [List.takeWhile_cons_of_pos hnl, List.count_cons]
      simp only [beq_self_eq_true, if_true, decide_True, Bool.true_and,
        Bool.not_eq_true', decide_eq_false_iff_not]
      omega
    · simp only [decide_True, Bool.true_and, Bool.not_eq_true',
        decide_eq_false_iff_not]
      omega
  | case3 rest hcount ih =>
    rw [collapseBlank, if_pos rfl, if_neg hcount]
    have h1 := countNl_takeWhile_wsDel (wsDel_collapseBlank rest)
    simp only [noBlankRun, Bool.and_eq_true]
    refine ⟨?_, ih⟩
    simp only [decide_True, Bool.true_and, Bool.not_eq_true',
      decide_eq_false_iff_not]
    omega
  | case4 c rest hc ih =>
    rw [collapseBlank, if_neg hc]
    simp only [noBlankRun, Bool.and_eq_true]
    exact ⟨by simp [hc], ih⟩

lemma collapseBlank_id : ∀ {s : List Char}, noBlankRun s = true →
    collapseBlank s = s := by
  intro s
  induction s using collapseBlank.induct with
  | case1 => intro _; rw [collapseBlank]
  | case2 rest hcount ih =>
    intro h
    exfalso
    simp only [noBlankRun, Bool.and_eq_true] at h
    rcases h with ⟨h1, _⟩
    simp only [decide_True, Bool.true_and, Bool.not_eq_true',
      decide_eq_false_iff_not] at h1
    omega
  | case3 rest hcount ih =>
    intro h
    rw [collapseBlank, if_pos rfl, if_neg hcount, ih (noBlankRun_cons h)]
  | case4 c rest hc ih =>
    intro h
    rw [collapseBlank, if_neg hc, ih (noBlankRun_cons h)]

lemma head?_collapseBlank : ∀ s : List Char,
    (collapseBlank s).head? = s.head? := by
  intro s
  induction s using collapseBlank.induct with
  | case1 => rw [collapseBlank]
  | case2 rest hcount ih =>
    rw [collapseBlank, if_pos rfl, if_pos hcount]
    rfl
  | case3 rest hcount ih =>
    rw [collapseBlank, if_pos rfl, if_neg hcount]
    rfl
  | case4 c rest hc ih =>
    rw [collapseBlank, if_neg hc]
    rfl

lemma noTabDoubleSpace_collapseBlank : ∀ {s : List Char},
    noTabDoubleSpace s = true → noTabDoubleSpace (collapseBlank s) = true := by
  intro s
  induction s using collapseBlank.induct with
  | case1 => intro _; rw [collapseBlank]; rfl
  | case2 rest hcount ih =>
    intro h
    rw [collapseBlank, if_pos rfl, if_pos hcount]
    simp only [noTabDoubleSpace, Bool.and_eq_true]
    refine ⟨⟨by decide, by simp⟩, ⟨⟨by decide, by simp⟩, ?_⟩⟩
    apply ih
    have hmem : '\n' ∈ rest.takeWhile isRustWhitespace := by
      apply List.count_pos_iff.mp
      omega
    obtain ⟨a, ha⟩ := afterLastNl_decomp hmem
    have hrest : rest = a ++ '\n' ::
        (afterLastNl (rest.takeWhile isRustWhitespace) ++
          rest.dropWhile isRustWhitespace) := by
      conv_lhs => rw [← List.takeWhile_append_dropWhile
        (p := isRustWhitespace) (l := rest)]
      conv_lhs => rw [ha]
      rw [List.append_assoc, List.cons_append]
    have h2 := noTabDoubleSpace_cons h
    rw [hrest] at h2
    exact noTabDoubleSpace_cons (noTabDoubleSpace_append_right h2)
  | case3 rest hcount ih =>
    intro h
    rw [collapseBlank, if_pos rfl, if_neg hcount]
    simp only [noTabDoubleSpace, Bool.and_eq_true]
    exact ⟨⟨by decide, by simp⟩, ih (noTabDoubleSpace_cons h)⟩
  | case4 c rest hc ih =>
    intro h
    rw [collapseBlank, if_neg hc]
    simp only [noTabDoubleSpace, Bool.and_eq_true] at h ⊢
    refine ⟨⟨h.1.1, ?_⟩, ih h.2⟩
    rw [head?_collapseBlank rest]
    exact h.1.2
  -- the pair condition transfers because collapseBlank preserves the head

lemma mem_collapseBlank : ∀ {s : List Char} {c : Char},
    c ∈ collapseBlank s → c ∈ s ∨ c = '\n' := by
  intro s
  induction s using collapseBlank.induct with
  | case1 => intro c hc; simp [collapseBlank] at hc
  | case2 rest hcount ih =>
    intro c hc
    rw [collapseBlank, if_pos rfl, if_pos hcount] at hc
    rcases List.mem_cons.mp hc with h | h
    · exact Or.inr h
    · rcases List.mem_cons.mp h with h2 | h2
      · exact Or.inr h2
      · rcases ih h2 with h3 | h3
        · rcases List.mem_append.mp h3 with h4 | h4
          · have h5 := mem_afterLastNl h4
            have h6 := (List.takeWhile_sublist (l := rest) isRustWhitespace).mem h5
            exact Or.inl (List.mem_cons.mpr (Or.inr h6))
          · have h6 := (List.dropWhile_sublist (l := rest) isRustWhitespace).mem h4
            exact Or.inl (List.mem_cons.mpr (Or.inr h6))
        · exact Or.inr h3
  | case3 rest hcount ih =>
    intro c hc
    rw [collapseBlank, if_pos rfl, if_neg hcount] at hc
    rcases List.mem_cons.mp hc with h | h
    · exact Or.inr h
    · rcases ih h with h2 | h2
      · exact Or.inl (List.mem_cons.mpr (Or.inr h2))
      · exact Or.inr h2
  | case4 a rest ha ih =>
    intro c hc
    rw [collapseBlank, if_neg ha] at hc
    rcases List.mem_cons.mp hc with h | h
    · exact Or.inl (List.mem_cons.mpr (Or.inl h))
    · rcases ih h with h2 | h2
      · exact Or.inl (List.mem_cons.mpr (Or.inr h2))
      · exact Or.inr h2

lemma dropWhile_dropWhile (p : Char → Bool) (l : List Char) :
    (l.dropWhile p).dropWhile p = l.dropWhile p := by
  cases h : l.dropWhile p with
  | nil => rfl
  | cons c t =>
    have h2 := List.head?_dropWhile_not p l
    rw [h] at h2
    simp only [List.head?_cons] at h2
    rw [List.dropWhile_cons_of_neg (by simp [h2])]

lemma dropWhile_eq_self_head {p : Char → Bool} {c : Char} {t : List Char}
    (h : (c :: t).dropWhile p = c :: t) : p c = false := by
  by_contra hp
  rw [List.dropWhile_cons_of_pos (by simpa using hp)] at h
  have := congrArg List.length h
  have h2 : (t.dropWhile p).length ≤ t.length := (List.dropWhile_sublist _).length_le
  simp only [List.length_cons] at this
  omega

lemma head?_append_of_ne_nil {a t : List Char} (h : a ≠ []) :
    (a ++ t).head? = a.head? := by
  cases a with
  | nil => exact absurd rfl h
  | cons c r => simp

lemma dropWhileRight_idem (p : Char → Bool) (y : List Char) :
    dropWhileRight p (dropWhileRight p y) = dropWhileRight p y := by
  unfold dropWhileRight
  rw [List.reverse_reverse, dropWhile_dropWhile]

lemma length_dropWhileRight_le (p : Char → Bool) (y : List Char) :
    (dropWhileRight p y).length ≤ y.length := by
  unfold dropWhileRight
  rw [List.length_reverse]
  calc (y.reverse.dropWhile p).length ≤ y.reverse.length :=
        (List.dropWhile_sublist _).length_le
    _ = y.length := List.length_reverse y

lemma dropWhile_dropWhileRight {p : Char → Bool} {y : List Char}
    (h : y.dropWhile p = y) :
    (dropWhileRight p y).dropWhile p = dropWhileRight p y := by
  cases hd : dropWhileRight p y with
  | nil => rfl
  | cons c t =>
    have hdec := dropWhileRight_decomp p y
    have hhead : y.head? = some c := by
      rw [hdec, hd]
      rw [head?_append_of_ne_nil (by simp)]
      simp
    cases y with
    | nil => simp at hhead
    | cons d r =>
      simp only [List.head?_cons, Option.some.injEq] at hhead
      subst hhead
      have hp := dropWhile_eq_self_head h
      rw [List.dropWhile_cons_of_neg (by simp [hp])]

lemma trimBy_idem (p : Char → Bool) (s : List Char) :
    trimBy p (trimBy p s) = trimBy p s := by
  unfold trimBy
  rw [dropWhile_dropWhileRight (dropWhile_dropWhile p s), dropWhileRight_idem]

lemma takeWhile_notNl_append {A R : List Char} (h : '\n' ∉ A) :
    (A ++ '\n' :: R).takeWhile notNl = A := by
  induction A with
  | nil =>
    rw [List.nil_append, List.takeWhile_cons_of_neg (by simp [notNl])]
  | cons c rest ih =>
    have hc : c ≠ '\n' := by
      intro hcc
      exact h (hcc ▸ List.mem_cons_self c rest)
    rw [List.cons_append, List.takeWhile_cons_of_pos (by simp [notNl, hc])]
    rw [ih (fun hm => h (List.mem_cons.mpr (Or.inr hm)))]

lemma dropWhile_notNl_append {A R : List Char} (h : '\n' ∉ A) :
    (A ++ '\n' :: R).dropWhile notNl = '\n' :: R := by
  induction A with
  | nil =>
    rw [List.nil_append, List.dropWhile_cons_of_neg (by simp [notNl])]
  | cons c rest ih =>
    have hc : c ≠ '\n' := by
      intro hcc
      exact h (hcc ▸ List.mem_cons_self c rest)
    rw [List.cons_append, List.dropWhile_cons_of_pos (by simp [notNl, hc])]
    exact ih (fun hm => h (List.mem_cons.mpr (Or.inr hm)))

lemma not_nl_takeWhile_notNl (s : List Char) : '\n' ∉ s.takeWhile notNl := by
  intro h
  have := List.mem_takeWhile_imp h
  simp [notNl] at this

lemma not_nl_trimBy_line (s : List Char) :
    '\n' ∉ trimBy isRustWhitespace (s.takeWhile notNl) := by
  intro h
  exact not_nl_takeWhile_notNl s (mem_trimBy h)

lemma split_first_nl {A B C D : List Char} (hA : '\n' ∉ A) (hC : '\n' ∉ C)
    (h : A ++ '\n' :: B = C ++ '\n' :: D) : A = C ∧ B = D := by
  have h1 : A = C := by
    have t1 := takeWhile_notNl_append (R := B) hA
    have t2 := takeWhile_notNl_append (R := D) hC
    rw [← t1, ← t2, h]
  subst h1
  refine ⟨rfl, ?_⟩
  have h2 := List.append_cancel_left h
  exact List.tail_eq_of_cons_eq h2

lemma trimBy_nil (p : Char → Bool) : trimBy p [] = [] := by
  unfold trimBy dropWhileRight
  simp

lemma trimLines_nil : trimLines [] = [] := by
  rw [trimLines]
  simp [trimBy_nil]

lemma trimLines_cons_nl (s : List Char) :
    trimLines ('\n' :: s) = '\n' :: trimLines s := by
  rw [trimLines]
  rw [dif_pos (List.mem_cons_self '\n' s)]
  rw [List.takeWhile_cons_of_neg (by simp [notNl]),
    List.dropWhile_cons_of_neg (by simp [notNl])]
  simp only [List.tail_cons]
  have : trimBy isRustWhitespace [] = [] := by
    unfold trimBy dropWhileRight
    simp
  rw [this, List.nil_append]

lemma trimLines_no_nl {s : List Char} (h : '\n' ∉ s) :
    trimLines s = trimBy isRustWhitespace s := by
  rw [trimLines, dif_neg h]

lemma trimLines_of_mem {s : List Char} (h : '\n' ∈ s) :
    trimLines s = trimBy isRustWhitespace (s.takeWhile notNl) ++
      '\n' :: trimLines ((s.dropWhile notNl).tail) := by
  rw [trimLines, dif_pos h]

lemma trimLines_idem : ∀ s : List Char, trimLines (trimLines s) = trimLines s := by
  intro s
  induction s using trimLines.induct with
  | case1 s h ih =>
    rw [trimLines_of_mem h]
    have hA : '\n' ∉ trimBy isRustWhitespace (s.takeWhile notNl) :=
      not_nl_trimBy_line s
    have hmem2 : '\n' ∈ trimBy isRustWhitespace (s.takeWhile notNl) ++
        '\n' :: trimLines ((s.dropWhile notNl).tail) := by simp
    rw [trimLines_of_mem hmem2, takeWhile_notNl_append hA, dropWhile_notNl_append hA]
    simp only [List.tail_cons]
    rw [trimBy_idem, ih]
  | case2 s h =>
    rw [trimLines_no_nl h]
    have h2 : '\n' ∉ trimBy isRustWhitespace s := fun hm => h (mem_trimBy hm)
    rw [trimLines_no_nl h2, trimBy_idem]

lemma takeWhile_notNl_append_of_mem {s : List Char} (h : '\n' ∈ s) (t : List Char) :
    (s ++ t).takeWhile notNl = s.takeWhile notNl ∧
    (s ++ t).dropWhile notNl = s.dropWhile notNl ++ t := by
  induction s with
  | nil => simp at h
  | cons c rest ih =>
    by_cases hc : c = '\n'
    · subst hc
      rw [List.cons_append, List.takeWhile_cons_of_neg (by simp [notNl]),
        List.takeWhile_cons_of_neg (by simp [notNl]),
        List.dropWhile_cons_of_neg (by simp [notNl]),
        List.dropWhile_cons_of_neg (by simp [notNl])]
      simp
    · have hmem : '\n' ∈ rest := by
        rcases List.mem_cons.mp h with h1 | h1
        · exact absurd h1.symm hc
        · exact h1
      have hpos : notNl c = true := by simp [notNl, hc]
      rw [List.cons_append, List.takeWhile_cons_of_pos hpos,
        List.takeWhile_cons_of_pos hpos, List.dropWhile_cons_of_pos hpos,
        List.dropWhile_cons_of_pos hpos]
      have := ih hmem
      rw [this.1, this.2]
      simp

lemma trimLines_append_nl : ∀ s : List Char,
    trimLines (s ++ ['\n']) = trimLines s ++ ['\n'] := by
  intro s
  induction s using trimLines.induct with
  | case1 s h ih =>
    have hsplit := takeWhile_notNl_append_of_mem h ['\n']
    have hmem : '\n' ∈ s ++ ['\n'] := by simp
    rw [trimLines_of_mem hmem, hsplit.1, hsplit.2]
    conv_lhs => rw [dropWhile_notNl_eq_cons h]
    simp only [List.cons_append, List.tail_cons]
    rw [ih, trimLines_of_mem h]
    simp
  | case2 s h =>
    rw [trimLines_no_nl h]
    have hmem : '\n' ∈ s ++ ['\n'] := by simp
    rw [trimLines_of_mem hmem]
    have hsing : s ++ ['\n'] = s ++ '\n' :: [] := rfl
    have h1 : (s ++ ['\n']).takeWhile notNl = s := by
      rw [hsing, takeWhile_notNl_append h]
    have h2 : (s ++ ['\n']).dropWhile notNl = ['\n'] := by
      rw [hsing, dropWhile_notNl_append h]
    rw [h1, h2]
    simp [trimLines_nil]

lemma fixed_of_cons_nl {s : List Char} (h : trimLines ('\n' :: s) = '\n' :: s) :
    trimLines s = s := by
  rw [trimLines_cons_nl] at h
  exact List.tail_eq_of_cons_eq h

lemma fixed_of_append_nl {z : List Char}
    (h : trimLines (z ++ ['\n']) = z ++ ['\n']) : trimLines z = z := by
  rw [trimLines_append_nl] at h
  exact List.append_cancel_right h

lemma dropWhile_eq_self_of_trimBy {p : Char → Bool} {y : List Char}
    (h : trimBy p y = y) : y.dropWhile p = y := by
  have h1 : (y.dropWhile p).length ≤ y.length := (List.dropWhile_sublist _).length_le
  have h2 : (trimBy p y).length ≤ (y.dropWhile p).length :=
    length_dropWhileRight_le p (y.dropWhile p)
  rw [h] at h2
  exact (List.dropWhile_sublist _).eq_of_length (by omega)

lemma dropWhileRight_eq_self_of_trimBy {p : Char → Bool} {y : List Char}
    (h : trimBy p y = y) : dropWhileRight p y = y := by
  have hdw := dropWhile_eq_self_of_trimBy h
  unfold trimBy at h
  rwa [hdw] at h

lemma fixed_split {y : List Char} (hmem : '\n' ∈ y) (h : trimLines y = y) :
    trimBy isRustWhitespace (y.takeWhile notNl) = y.takeWhile notNl ∧
    trimLines ((y.dropWhile notNl).tail) = (y.dropWhile notNl).tail := by
  have hdec := takeWhile_dropWhile_notNl_decomp y hmem
  rw [trimLines_of_mem hmem] at h
  conv_rhs at h => rw [hdec]
  exact split_first_nl (not_nl_trimBy_line y) (not_nl_takeWhile_notNl y) h

lemma fixed_front : ∀ (n : Nat) (y : List Char), y.length ≤ n →
    trimLines y = y →
    trimLines (y.dropWhile isRustWhitespace) = y.dropWhile isRustWhitespace := by
  intro n
  induction n with
  | zero =>
    intro y hy _
    have : y = [] := List.length_eq_zero.mp (Nat.le_zero.mp hy)
    subst this
    simpa using trimLines_nil
  | succ n ih =>
    intro y hy h
    by_cases hmem : '\n' ∈ y
    · obtain ⟨htb, hrest⟩ := fixed_split hmem h
      have hdec := takeWhile_dropWhile_notNl_decomp y hmem
      cases htake : y.takeWhile notNl with
      | nil =>
        rw [htake, List.nil_append] at hdec
        rw [hdec]
        rw [List.dropWhile_cons_of_pos (by decide)]
        have hlen : ((y.dropWhile notNl).tail).length ≤ n := by
          have := congrArg List.length hdec
          simp only [List.length_cons] at this
          omega
        exact ih _ hlen hrest
      | cons a t =>
        rw [htake] at htb hdec
        have hws : isRustWhitespace a = false :=
          dropWhile_eq_self_head (dropWhile_eq_self_of_trimBy htb)
        rw [hdec, List.cons_append, List.dropWhile_cons_of_neg (by simp [hws]),
          ← List.cons_append, ← hdec]
        exact h
    · have htb : trimBy isRustWhitespace y = y := by
        rw [← trimLines_no_nl hmem]
        exact h
      rw [dropWhile_eq_self_of_trimBy htb]
      exact h

lemma fixed_last_ws : ∀ (n : Nat) (y : List Char), y.length ≤ n →
    trimLines y = y → ∀ c, y.reverse.head? = some c →
    isRustWhitespace c = true → c = '\n' := by
  intro n
  induction n with
  | zero =>
    intro y hy _ c hc _
    have : y = [] := List.length_eq_zero.mp (Nat.le_zero.mp hy)
    subst this
    simp at hc
  | succ n ih =>
    intro y hy h c hc hws
    by_cases hmem : '\n' ∈ y
    · obtain ⟨htb, hrest⟩ := fixed_split hmem h
      have hdec := takeWhile_dropWhile_notNl_decomp y hmem
      cases hr : (y.dropWhile notNl).tail with
      | nil =>
        rw [hr] at hdec
        rw [hdec, List.reverse_append] at hc
        simp only [List.reverse_cons, List.reverse_nil, List.nil_append,
          List.singleton_append, List.head?_cons, Option.some.injEq] at hc
        exact hc.symm
      | cons d r =>
        rw [hr] at hdec hrest
        rw [hdec, List.reverse_append] at hc
        have hne : ((d :: r) : List Char).reverse ≠ [] := by simp
        rw [List.reverse_cons, List.append_assoc,
          head?_append_of_ne_nil hne] at hc
        have hlen : ((d :: r) : List Char).length ≤ n := by
          have := congrArg List.length hdec
          simp only [List.length_append, List.length_cons] at this ⊢
          omega
        exact ih _ hlen hrest c hc hws
    · have htb : trimBy isRustWhitespace y = y := by
        rw [← trimLines_no_nl hmem]
        exact h
      have hdwr := dropWhileRight_eq_self_of_trimBy htb
      have hrev : y.reverse.dropWhile isRustWhitespace = y.reverse := by
        have := congrArg List.reverse hdwr
        unfold dropWhileRight at this
        rwa [List.reverse_reverse] at this
      exfalso
      cases hyr : y.reverse with
      | nil => rw [hyr] at hc; simp at hc
      | cons e t =>
        rw [hyr] at hrev hc
        simp only [List.head?_cons, Option.some.injEq] at hc
        subst hc
        rw [dropWhile_eq_self_head hrev] at hws
        simp at hws

lemma fixed_back : ∀ (n : Nat) (y : List Char), y.length ≤ n →
    trimLines y = y →
    trimLines (dropWhileRight isRustWhitespace y) =
      dropWhileRight isRustWhitespace y := by
  intro n
  induction n with
  | zero =>
    intro y hy _
    have : y = [] := List.length_eq_zero.mp (Nat.le_zero.mp hy)
    subst this
    have : dropWhileRight isRustWhitespace ([] : List Char) = [] := by
      unfold dropWhileRight
      simp
    rw [this]
    exact trimLines_nil
  | succ n ih =>
    intro y hy h
    cases hyr : y.reverse with
    | nil =>
      have hnil : y = [] := by
        have := congrArg List.reverse hyr
        rwa [List.reverse_reverse] at this
      subst hnil
      have : dropWhileRight isRustWhitespace ([] : List Char) = [] := by
        unfold dropWhileRight
        simp
      rw [this]
      exact trimLines_nil
    | cons c u =>
      by_cases hws : isRustWhitespace c
      · have hcnl : c = '\n' :=
          fixed_last_ws (n + 1) y hy h c (by rw [hyr]; rfl) hws
        subst hcnl
        have hydec : y = u.reverse ++ ['\n'] := by
          have := congrArg List.reverse hyr
          rw [List.reverse_reverse] at this
          rw [this, List.reverse_cons]
        have hzfix : trimLines u.reverse = u.reverse := by
          apply fixed_of_append_nl
          rw [← hydec]
          exact h
        have hdwr : dropWhileRight isRustWhitespace y =
            dropWhileRight isRustWhitespace u.reverse := by
          unfold dropWhileRight
          rw [hyr, List.dropWhile_cons_of_pos hws, List.reverse_reverse]
        rw [hdwr]
        have hlen : u.reverse.length ≤ n := by
          have := congrArg List.length hyr
          rw [List.length_reverse] at this
          simp only [List.length_cons] at this
          rw [List.length_reverse]
          omega
        exact ih _ hlen hzfix
      · have hdwr : dropWhileRight isRustWhitespace y = y := by
          unfold dropWhileRight
          rw [hyr, List.dropWhile_cons_of_neg (by simpa using hws), ← hyr,
            List.reverse_reverse]
        rw [hdwr]
        exact h

lemma noTabDoubleSpace_trimBy {p : Char → Bool} {s : List Char}
    (h : noTabDoubleSpace s = true) : noTabDoubleSpace (trimBy p s) = true := by
  have hd := trimBy_decomp p s
  rw [hd] at h
  exact noTabDoubleSpace_append_left (noTabDoubleSpace_append_right h)

lemma noTabDoubleSpace_trimLines : ∀ {s : List Char},
    noTabDoubleSpace s = true → noTabDoubleSpace (trimLines s) = true := by
  intro s
  induction s using trimLines.induct with
  | case1 s h ih =>
    intro hs
    rw [trimLines_of_mem h]
    have hdec := takeWhile_dropWhile_notNl_decomp s h
    have hline : noTabDoubleSpace (s.takeWhile notNl) = true := by
      rw [hdec] at hs
      exact noTabDoubleSpace_append_left hs
    have hrest : noTabDoubleSpace ((s.dropWhile notNl).tail) = true := by
      rw [hdec] at hs
      exact noTabDoubleSpace_cons (noTabDoubleSpace_append_right hs)
    exact noTabDoubleSpace_append_mid (by decide) (by decide)
      (noTabDoubleSpace_trimBy hline) (ih hrest)
  | case2 s h =>
    intro hs
    rw [trimLines_no_nl h]
    exact noTabDoubleSpace_trimBy hs

lemma mem_trimLines : ∀ {s : List Char} {c : Char},
    c ∈ trimLines s → c ∈ s ∨ c = '\n' := by
  intro s
  induction s using trimLines.induct with
  | case1 s h ih =>
    intro c hc
    rw [trimLines_of_mem h] at hc
    rcases List.mem_append.mp hc with h1 | h1
    · have h2 := mem_trimBy h1
      exact Or.inl ((List.takeWhile_sublist _).mem h2)
    · rcases List.mem_cons.mp h1 with rfl | h2
      · exact Or.inr rfl
      · rcases ih h2 with h3 | h3
        · have h4 := (List.tail_sublist (s.dropWhile notNl)).mem h3
          exact Or.inl ((List.dropWhile_sublist _).mem h4)
        · exact Or.inr h3
  | case2 s h =>
    intro c hc
    rw [trimLines_no_nl h] at hc
    exact Or.inl (mem_trimBy hc)

/-- C4.  Text Cleaner idempotence: applying `clean_content` twice gives the
same result as applying it once, for every input string. -/
theorem clean_content_idempotent (s : List Char) :
    clean_content (clean_content s) = clean_content s := by
  by_cases hs : s = []
  · subst hs
    rfl
  · have hcc : clean_content s = trimBy isRustWhitespace
        (trimLines (collapseBlank (collapseSpaceTab (s.filter keepChar)))) := by
      unfold clean_content
      rw [if_neg hs]
    by_cases hcnil : clean_content s = []
    · rw [hcnil]
      rfl
    · have hkeep : ∀ a ∈ clean_content s, keepChar a = true := by
        intro a ha
        rw [hcc] at ha
        have h1 := mem_trimBy ha
        rcases mem_trimLines h1 with h2 | rfl
        · rcases mem_collapseBlank h2 with h3 | rfl
          · rcases mem_collapseSpaceTabGo false _ a h3 with h4 | rfl
            · exact (List.mem_filter.mp h4).2
            · decide
          · decide
        · decide
      have hnts : noTabDoubleSpace (clean_content s) = true := by
        rw [hcc]
        exact noTabDoubleSpace_trimBy (noTabDoubleSpace_trimLines
          (noTabDoubleSpace_collapseBlank (noTabDoubleSpace_collapseGo false _)))
      have hnbr : noBlankRun (clean_content s) = true := by
        rw [hcc]
        exact noBlankRun_wsDel (wsDel_trimBy_ws _)
          (noBlankRun_wsDel (wsDel_trimLines _) (noBlankRun_collapseBlank _))
      have htl : trimLines (clean_content s) = clean_content s := by
        rw [hcc]
        unfold trimBy
        apply fixed_back _ _ (le_refl _)
        apply fixed_front _ _ (le_refl _)
        exact trimLines_idem _
      have htb : trimBy isRustWhitespace (clean_content s) = clean_content s := by
        rw [hcc]
        exact trimBy_idem _ _
      set t := clean_content s with ht
      show clean_content t = t
      unfold clean_content
      rw [if_neg hcnil, List.filter_eq_self.mpr hkeep, collapseSpaceTab_id hnts,
        collapseBlank_id hnbr, htl, htb]

end FileFairy
